import Mathlib

/-!
Shallow embedding of the mbuild OPLS-aa atomtyper
(src/mbuild/tools/parameterize/oplsaa.py) together with the parts of
src/mbuild/core.py that it reads (atom kinds and bonded-neighbor lists),
and proofs about the engine: the fixed-point loop, the whitelist/blacklist
reduction, the ring-finding depth-first search, the benzene membership
check, the precedence-graph sink validator and the catalog scans.

Atoms are identified with indices 0..n-1 of a molecule; the per-atom
OrderedSet whitelists and blacklists are duplicate-free insertion-ordered
lists of rule-identifier strings.
-/

/-- OrderedSet insertion: append an element unless it is already present.
The per-atom `opls_whitelist`/`opls_blacklist` are OrderedSets, so an add
either appends at the end or leaves the list unchanged. -/
def osAdd (s : List String) (x : String) : List String :=
  if x ∈ s then s else s ++ [x]

/-- The `whitelist`/`blacklist` helpers iterate over the declared rule ids,
adding each in turn. -/
def osAddAll (s : List String) (xs : List String) : List String :=
  xs.foldl osAdd s

/-- A compound as the typing engine reads it: `n` atoms with indices
0..n-1; `kind i` is atom i's element string (the reserved kind "G" marks
ghost/Port atoms); `adj i` is atom i's bonded-neighbor list
(`Atom.neighbors` in core.py, derived from its bonds). -/
structure Mol where
  n : Nat
  kind : Nat → String
  adj : Nat → List Nat

/-- Engine state: entry i is atom i's (opls_whitelist, opls_blacklist). -/
def St : Type := List (List String × List String)

/-- Atom i's whitelist. -/
def wl (st : St) (i : Nat) : List String := (st.getD i ([], [])).1

/-- Atom i's blacklist. -/
def bl (st : St) (i : Nat) : List String := (st.getD i ([], [])).2

/-- `prepare`: every atom (ghosts included) starts a typing run with
empty white- and blacklists. -/
def prepare (m : Mol) : St := List.replicate m.n ([], [])

/-- `neighbor_types(atom)[k]`: how many bonded neighbors of atom i have
kind k.  The process-wide memo cache of the source is semantically
transparent because the bond graph is static during a run, so the count is
computed directly. -/
def neighbor_types (m : Mol) (i : Nat) (k : String) : Nat :=
  (m.adj i).countP (fun j => m.kind j == k)

/-- Truthiness of `check_atom(neighbor, rule_ids)`: the intersection of
the given ids with the neighbor's whitelist, minus its blacklist, is
nonempty. -/
def check_atom (st : St) (i : Nat) (ids : List String) : Bool :=
  ids.any (fun r => decide (r ∈ wl st i) && decide (r ∉ bl st i))

/-- The neighbor loop of `Rings.step`, made functional.
`rings_loop adj L stepf ns path` returns the rings recorded while `ns`
(the not-yet-scanned tail of the neighbor list of `path`'s last atom) is
processed: a neighbor equal to the path's first atom with the path longer
than 2 records the current path; a neighbor already on the path is
skipped; otherwise, while the path is shorter than `L`, the search steps
to the neighbor (`stepf`, the recursive entry of `step`). -/
def rings_loop (adj : Nat → List Nat) (L : Nat)
    (stepf : Nat → List Nat → List (List Nat)) :
    List Nat → List Nat → List (List Nat)
  | [], _ => []
  | n :: rest, path =>
      (if 2 < path.length ∧ path.head? = some n then [path]
       else if n ∈ path then []
       else if path.length < L then stepf n (path ++ [n])
       else [])
      ++ rings_loop adj L stepf rest path

/-- `Rings.step`: scan the neighbor list of the path's last atom, but only
when that atom has more than one neighbor (dead ends terminate the
branch).  `fuel` bounds the recursion depth; the `path.length < L` guard
of the loop bounds the nesting depth by `L`, so `fuel = L + 1` at top
level never reaches 0. -/
def rings_step (adj : Nat → List Nat) (L : Nat) : Nat → Nat → List Nat → List (List Nat)
  | 0, _, _ => []
  | fuel + 1, a, path =>
      if 1 < (adj a).length then
        rings_loop adj L (rings_step adj L fuel) (adj a) path
      else []

/-- `Rings(atom, ring_length).rings`: the constructor seeds the current
path with the start atom and calls `step` on it. -/
def rings (adj : Nat → List Nat) (L : Nat) (a : Nat) : List (List Nat) :=
  rings_step adj L (L + 1) a [a]

/-- `benzene(atom)`: a ring (truthy, `some`) exactly when the 6-ring
search returns exactly two entries and every atom of the first entry is a
carbon with exactly 3 neighbors; otherwise `False` (`none`). -/
def benzene (m : Mol) (i : Nat) : Option (List Nat) :=
  match rings m.adj 6 i with
  | [r1, _] =>
    if r1.all (fun c => m.kind c == "C" && (m.adj c).length == 3) then some r1
    else none
  | _ => none

/-- One neighbor-count decorator (`NeighborsExactly`, `NeighborsAtLeast`
or `NeighborsAtMost`). -/
inductive NbrCheck where
  | exactly (k : String) (c : Nat)
  | atLeast (k : String) (c : Nat)
  | atMost (k : String) (c : Nat)

/-- A neighbor-count decorator passes only when the neighbor kind occurs
at all (`self.neighbor_type in neighbor_types(atom)`, i.e. count ≥ 1) and
the count compares as declared. -/
def nbrCheckHolds (m : Mol) (i : Nat) : NbrCheck → Bool
  | .exactly k c =>
    decide (1 ≤ neighbor_types m i k) && decide (neighbor_types m i k = c)
  | .atLeast k c =>
    decide (1 ≤ neighbor_types m i k) && decide (c ≤ neighbor_types m i k)
  | .atMost k c =>
    decide (1 ≤ neighbor_types m i k) && decide (neighbor_types m i k ≤ c)

/-- One `opls_*` rule: identifier, Element decorator, NeighborCount
decorator, neighbor-count decorators, declared Whitelist ids (stored
sorted as strings), declared Blacklist ids, and the read-only body
predicate. -/
structure OplsRule where
  num : String
  elem : String
  deg : Nat
  checks : List NbrCheck
  wlIds : List String
  blIds : List String
  body : Mol → St → Nat → Bool

/-- The decorator chain around a rule body: the element must match, the
neighbor count must match, every neighbor-count decorator must pass, and
then the body itself must be truthy. -/
def ruleFires (m : Mol) (st : St) (i : Nat) (r : OplsRule) : Bool :=
  (m.kind i == r.elem) && ((m.adj i).length == r.deg) &&
    r.checks.all (nbrCheckHolds m i) && r.body m st i

/-- `run_rule` plus the Whitelist/Blacklist wrappers: skip when the rule's
own id is already in the atom's whitelist or blacklist; otherwise run the
decorated rule, and on success add the declared whitelist and blacklist
ids to the atom's sets (only the visited atom's state changes). -/
def run_rule (m : Mol) (st : St) (i : Nat) (r : OplsRule) : St :=
  if r.num ∈ wl st i ∨ r.num ∈ bl st i then st
  else if ruleFires m st i r then
    st.set i (osAddAll (wl st i) r.wlIds, osAddAll (bl st i) r.blIds)
  else st

/-- Rule body that just returns True. -/
def alwaysTrue : Mol → St → Nat → Bool := fun _ _ _ => true

/-- `atom.neighbors[0]` (used only by rules whose NeighborCount is 1). -/
def firstNeighbor (m : Mol) (i : Nat) : Nat := (m.adj i).headD 0

def opls_135 : OplsRule :=
  ⟨"135", "C", 4, [.exactly "C" 1, .exactly "H" 3], ["135"], [], alwaysTrue⟩

def opls_136 : OplsRule :=
  ⟨"136", "C", 4, [.exactly "C" 2, .exactly "H" 2], ["136"], [], alwaysTrue⟩

def opls_137 : OplsRule :=
  ⟨"137", "C", 4, [.exactly "C" 3, .exactly "H" 1], ["137"], [], alwaysTrue⟩

def opls_138 : OplsRule :=
  ⟨"138", "C", 4, [.exactly "H" 4], ["138"], [], alwaysTrue⟩

def opls_139 : OplsRule :=
  ⟨"139", "C", 4, [.exactly "C" 4], ["139"], [], alwaysTrue⟩

def opls_140 : OplsRule :=
  ⟨"140", "H", 1, [.exactly "C" 1], ["140"], [], alwaysTrue⟩

def opls_141 : OplsRule :=
  ⟨"141", "C", 3, [.exactly "C" 3], ["141"], [], alwaysTrue⟩

def opls_142 : OplsRule :=
  ⟨"142", "C", 3, [.exactly "C" 2, .exactly "H" 1], ["142"], [], alwaysTrue⟩

def opls_143 : OplsRule :=
  ⟨"143", "C", 3, [.exactly "C" 1, .exactly "H" 2], ["143"], [], alwaysTrue⟩

def opls_144 : OplsRule :=
  ⟨"144", "H", 1, [.exactly "C" 1], ["144"], ["140"],
    fun m st i => check_atom st (firstNeighbor m i) ["141", "142", "143"]⟩

def opls_145 : OplsRule :=
  ⟨"145", "C", 3, [.atLeast "C" 2], ["145"], ["141", "142"],
    fun m _ i => (benzene m i).isSome⟩

def opls_145B : OplsRule :=
  ⟨"145B", "C", 3, [.exactly "C" 3], ["145B"], ["141", "145"],
    fun m _ i =>
      match benzene m i with
      | some ring1 =>
        (m.adj i).any (fun nb => decide (nb ∉ ring1) && (benzene m nb).isSome)
      | none => false⟩

def opls_146 : OplsRule :=
  ⟨"146", "H", 1, [], ["146"], ["140", "144"],
    fun m st i => check_atom st (firstNeighbor m i) ["145"]⟩

def opls_148 : OplsRule :=
  ⟨"148", "C", 4, [.exactly "C" 1, .exactly "H" 3], ["148"], ["135"],
    fun m st i =>
      (m.adj i).any (fun nb => (m.kind nb == "C") && check_atom st nb ["145"])⟩

def opls_149 : OplsRule :=
  ⟨"149", "C", 4, [.exactly "C" 2, .exactly "H" 2], ["149"], ["136"],
    fun m st i =>
      (m.adj i).any (fun nb => (m.kind nb == "C") && check_atom st nb ["145"])⟩

def opls_154 : OplsRule :=
  ⟨"154", "O", 2, [.exactly "H" 1], ["154"], [], alwaysTrue⟩

def opls_155 : OplsRule :=
  ⟨"155", "H", 1, [.exactly "O" 1], ["155"], [],
    fun m st i => check_atom st (firstNeighbor m i) ["154"]⟩

def opls_218 : OplsRule :=
  ⟨"218", "C", 4, [.exactly "O" 1, .exactly "C" 1, .exactly "H" 2], ["218"], [],
    fun m st i =>
      let flags := (m.adj i).foldl
        (fun (fl : Bool × Bool) nb =>
          let fl1 := if m.kind nb == "C" then (check_atom st nb ["145"], fl.2) else fl
          if m.kind nb == "O" then (fl1.1, check_atom st nb ["154"]) else fl1)
        (false, false)
      flags.1 && flags.2⟩

def opls_221 : OplsRule :=
  ⟨"221", "C", 3, [.exactly "C" 3], ["221"], ["141", "145", "145B"],
    fun m st i =>
      check_atom st i ["145"] && (m.adj i).any (fun nb => check_atom st nb ["218"])⟩

def opls_232 : OplsRule :=
  ⟨"232", "C", 3, [.atLeast "C" 1, .exactly "O" 1], ["232"], [],
    fun m st i =>
      let flags := (m.adj i).foldl
        (fun (fl : Bool × Bool) nb =>
          let fl1 := if m.kind nb == "C" then (check_atom st nb ["145"], fl.2) else fl
          if m.kind nb == "O" then (fl1.1, check_atom st nb ["278"]) else fl1)
        (false, false)
      flags.1 && flags.2⟩

def opls_278 : OplsRule :=
  ⟨"278", "O", 1, [.atLeast "C" 1], ["278"], [], alwaysTrue⟩

def opls_279 : OplsRule :=
  ⟨"279", "H", 1, [.atLeast "C" 1], ["279"], ["140", "144", "146"],
    fun m st i => check_atom st (firstNeighbor m i) ["232", "277"]⟩

/-- The registered rule catalog (`rule_number_to_rule`), in source order. -/
def ruleCatalog : List OplsRule :=
  [opls_135, opls_136, opls_137, opls_138, opls_139, opls_140,
   opls_141, opls_142, opls_143, opls_144, opls_145, opls_145B, opls_146,
   opls_148, opls_149, opls_154, opls_155, opls_218, opls_221, opls_232,
   opls_278, opls_279]

/-- `rule_map[kind][degree]`: the rules of catalog `cat` whose Element and
NeighborCount decorators name this kind and degree.  Every rule of the
registered catalog declares both decorators, so the wildcard degree bucket
is always empty. -/
def rulesFor (cat : List OplsRule) (k : String) (d : Nat) : List OplsRule :=
  cat.filter (fun r => r.elem == k && r.deg == d)

/-- Run every rule of the atom's (kind, degree) bucket on the atom. -/
def runAtomRules (cat : List OplsRule) (m : Mol) (st : St) (i : Nat) : St :=
  (rulesFor cat (m.kind i) (m.adj i).length).foldl (fun s r => run_rule m s i r) st

/-- One atom of one pass of the fixed-point loop: `old_len` accumulates
the atom's whitelist+blacklist size before its rules run, `new_len` after;
a ghost atom (kind "G") is counted into `old_len` and then skipped. -/
def passStep (cat : List OplsRule) (m : Mol) : St × Nat × Nat → Nat → St × Nat × Nat :=
  fun x i =>
    let old := x.2.1 + (wl x.1 i).length + (bl x.1 i).length
    if m.kind i = "G" then (x.1, old, x.2.2)
    else
      let st' := runAtomRules cat m x.1 i
      (st', old, x.2.2 + (wl st' i).length + (bl st' i).length)

/-- One full pass over all atoms: (state after the pass, old_len, new_len). -/
def runPass (cat : List OplsRule) (m : Mol) (st : St) : St × Nat × Nat :=
  (List.range m.n).foldl (passStep cat m) (st, 0, 0)

/-- The `for iter_cnt in range(max_iter)` loop: run passes until a pass
ends with `old_len == new_len` (early break, no warning) or the pass
budget is exhausted, in which case the "Reached maximum iterations"
warning is emitted (`true`).  Returns (final state, passes run, warning). -/
def engineAux (cat : List OplsRule) (m : Mol) : Nat → St → St × Nat × Bool
  | 0, st => (st, 0, true)
  | fuel + 1, st =>
    let r := runPass cat m st
    if r.2.1 = r.2.2 then (r.1, 1, false)
    else
      let e := engineAux cat m fuel r.1
      (e.1, e.2.1 + 1, e.2.2)

/-- The pass cap of the fixed-point loop. -/
def max_iter : Nat := 10

/-- The whole fixed-point phase of `atomtypes_opls`: prepare empty lists
on every atom, then iterate up to `max_iter` passes of catalog `cat`. -/
def engine (cat : List OplsRule) (m : Mol) : St × Nat × Bool :=
  engineAux cat m max_iter (prepare m)

/-- The atoms the reduction loop visits: `compound.atoms` excludes the
reserved ghost kind "G". -/
def nonGhostAtoms (m : Mol) : List Nat :=
  (List.range m.n).filter (fun i => m.kind i ≠ "G")

/-- The reduction of the final state (`debug=False` branch): per non-ghost
atom, candidates = whitelist − blacklist; exactly one candidate is written
as the atom's `opls_type`; otherwise the sentinel "XXX" is written and the
"CHECK YOUR TOPOLOGY" warning carrying (enumeration index, atom kind,
candidate list) is emitted. -/
def reduceTypes (m : Mol) (st : St) :
    List (String × Option (Nat × String × List String)) :=
  (List.enumFrom 0 (nonGhostAtoms m)).map (fun p =>
    match (wl st p.2).filter (fun r => decide (r ∉ bl st p.2)) with
    | [t] => (t, none)
    | diff => ("XXX", some (p.1, m.kind p.2, diff)))

/-- The whole typing run `atomtypes_opls(compound)`: fixed-point phase,
then reduction.  Returns (per-atom results, passes run, max-iter warning). -/
def atomtypes_opls (m : Mol) :
    List (String × Option (Nat × String × List String)) × Nat × Bool :=
  let e := engine ruleCatalog m
  (reduceTypes m e.1, e.2.1, e.2.2)

/-- The first source definition of `check_neighbors_at_least` (lines
168-174): count occurrences of the neighbor type in the pattern and
compare with ≥.  It is immediately shadowed by the second definition. -/
def check_neighbors_at_least_v1 (pattern : List String) (t : String) (c : Nat) : Bool :=
  let cnt := pattern.foldl (fun cnt elem => if elem = t then cnt + 1 else cnt) 0
  decide (c ≤ cnt)

/-- The second source definition (lines 176-182), the one the name
`check_neighbors_at_least` denotes after Python's shadowing: the same
count, compared with ≤. -/
def check_neighbors_at_least (pattern : List String) (t : String) (c : Nat) : Bool :=
  let cnt := pattern.foldl (fun cnt elem => if elem = t then cnt + 1 else cnt) 0
  decide (cnt ≤ c)

/-- The state at the start of pass k+1 (k passes of the loop applied to
the prepared state). -/
def passSt (cat : List OplsRule) (m : Mol) : Nat → St
  | 0 => prepare m
  | k + 1 => (runPass cat m (passSt cat m k)).1

/-- Pass k+1 of the loop ends with `old_len == new_len`, the loop's early
exit condition. -/
def stableAt (cat : List OplsRule) (m : Mol) (k : Nat) : Prop :=
  (runPass cat m (passSt cat m k)).2.1 = (runPass cat m (passSt cat m k)).2.2

/-- The summed whitelist+blacklist cardinality over all atoms. -/
def totalLen (m : Mol) (st : St) : Nat :=
  ((List.range m.n).map (fun i => (wl st i).length + (bl st i).length)).sum

/-- Ghost atoms carry empty white- and blacklists (an invariant of every
state the engine reaches: ghosts are prepared empty and never visited). -/
def ghostsEmpty (m : Mol) (st : St) : Prop :=
  ∀ i, m.kind i = "G" → wl st i = [] ∧ bl st i = []

/-- Methane: atom 0 a carbon bonded to four hydrogens 1-4. -/
def methane : Mol :=
  ⟨5, fun i => if i = 0 then "C" else if i < 5 then "H" else "",
   fun i => if i = 0 then [1, 2, 3, 4] else if i < 5 then [0] else []⟩

/-- A triangle: three mutually bonded atoms 0, 1, 2. -/
def triAdj : Nat → List Nat := fun i =>
  match i with
  | 0 => [1, 2] | 1 => [0, 2] | 2 => [0, 1] | _ => []

/-- The carbon skeleton of naphthalene: two six-rings 0-1-2-3-4-5 and
0-5-6-7-8-9 fused along the bond 0-5. -/
def naphAdj : Nat → List Nat := fun i =>
  match i with
  | 0 => [1, 5, 9] | 1 => [0, 2] | 2 => [1, 3] | 3 => [2, 4] | 4 => [3, 5]
  | 5 => [4, 0, 6] | 6 => [5, 7] | 7 => [6, 8] | 8 => [7, 9] | 9 => [8, 0]
  | _ => []

/-- Naphthalene as a molecule (kinds all carbon). -/
def naphthalene : Mol := ⟨10, fun _ => "C", naphAdj⟩

/-- One decorator as data, for the catalog-build scans of
`atomtypes_opls`. -/
inductive OplsDec where
  | element (e : String)
  | nbrCount (c : Nat)
  | wlDec (ids : List String)
  | blDec (ids : List String)

/-- The duplicate-element scan of `atomtypes_opls` (lines 233-241 walk a
rule's decorators keeping `element_type`, and `assert element_type is
None` raises a fatal AssertionError when a second Element decorator is
seen).  The raise is modelled as `Except.error`. -/
def elementScan : List OplsDec → Option String → Except String (Option String)
  | [], acc => .ok acc
  | .element e :: rest, acc =>
    match acc with
    | some _ => .error "Duplicate element type decorators on rule"
    | none => elementScan rest (some e)
  | _ :: rest, acc => elementScan rest acc

/-- `run_rule`'s dispatch `rule_number_to_rule[str(rule_id)]`: an unknown
rule identifier raises a fatal KeyError, re-raised as `KeyError('Rule for
... not implemented')`.  The raise is modelled as `Except.error`. -/
def run_rule_lookup (cat : List OplsRule) (rid : String) : Except String OplsRule :=
  match cat.find? (fun r => r.num == rid) with
  | some r => .ok r
  | none => .error ("Rule for " ++ rid ++ " not implemented")

/-- The edges of a per-pattern precedence graph: one directed edge
rule → blacklisted id for every Blacklist declaration of every rule
(`G.add_edge(rule_number, blacklisted_rule)`).  A rule is given here as
(identifier, declared blacklist). -/
def blEdges (rules : List (String × List String)) : List (String × String) :=
  rules.foldr (fun p acc => p.2.map (fun b => (p.1, b)) ++ acc) []

/-- `G.nodes()`: every endpoint of an edge, first occurrence order. -/
def gNodes (edges : List (String × String)) : List String :=
  edges.foldl (fun acc e => osAdd (osAdd acc e.1) e.2) []

/-- The successors of a node along the directed edges. -/
def succs (edges : List (String × String)) (v : String) : List String :=
  (edges.filter (fun e => e.1 == v)).map (fun e => e.2)

/-- One breadth-first expansion: add every successor of every collected
node. -/
def reachStep (edges : List (String × String)) (vs : List String) : List String :=
  vs.foldl (fun acc v => osAddAll acc (succs edges v)) vs

/-- Iterate the expansion. -/
def reachClosure (edges : List (String × String)) : Nat → List String → List String
  | 0, vs => vs
  | f + 1, vs => reachClosure edges f (reachStep edges vs)

/-- `nx.descendants(G, v)`: all nodes reachable from v by at least one
edge, v itself excluded.  `edges.length + 1` expansions always reach the
closure, since the collected list grows by at least one node per
non-stable expansion and holds at most `edges.length + 1` nodes. -/
def descendants (edges : List (String × String)) (v : String) : List String :=
  (reachClosure edges (edges.length + 1) [v]).filter (fun x => decide (x ≠ v))

/-- The sink scan of the validator: the graph's nodes with
`len(nx.descendants(G, node)) == 0`. -/
def sinks (edges : List (String × String)) : List String :=
  (gNodes edges).filter (fun v => decide (descendants edges v = []))

/-- The validator's sink warning (lines 322-329): emitted exactly when
`len(sinks) > 1`. -/
def multiple_sinks_warn (rules : List (String × List String)) : Bool :=
  decide (1 < (sinks (blEdges rules)).length)

/-- The edge relation of the blacklist graph of a rule set. -/
def edgeRel (rules : List (String × List String)) (a b : String) : Prop :=
  (a, b) ∈ blEdges rules

/-! ## Helper lemmas about OrderedSet insertion -/

theorem osAdd_grows (s : List String) (x : String) : s <+: osAdd s x := by
  unfold osAdd
  split
  · exact List.prefix_rfl
  · exact ⟨[x], rfl⟩

theorem osAddAll_cons (s : List String) (a : String) (as : List String) :
    osAddAll s (a :: as) = osAddAll (osAdd s a) as := rfl

theorem osAddAll_grows (xs : List String) : ∀ s, s <+: osAddAll s xs := by
  induction xs with
  | nil => intro s; exact List.prefix_rfl
  | cons a as ih =>
    intro s
    exact (osAdd_grows s a).trans (ih (osAdd s a))

theorem count_foldl (t : String) :
    ∀ (l : List String) (k : Nat),
      l.foldl (fun cnt e => if e = t then cnt + 1 else cnt) k =
        k + l.countP (fun e => e == t) := by
  intro l
  induction l with
  | nil => simp
  | cons a as ih =>
    intro k
    by_cases h : a = t
    · simp [List.countP_cons, ih, h]
      omega
    · simp [List.countP_cons, ih, h]

/-- C9: the source's "neighbors at-most" check is defined under the same
name as the "neighbors at-least" check and the second definition shadows
the first, so for every pattern, neighbor type t and count c the function
named `check_neighbors_at_least` returns true if and only if the number of
occurrences of t in the pattern is ≤ c; the shadowed ≥ comparison is
observably different (at `["C"], "C", 0` it answers true where the
surviving definition answers false), hence unreachable through the name. -/
theorem C9_at_least_shadowed_by_at_most :
    (∀ pattern t c, check_neighbors_at_least pattern t c = true ↔
        pattern.countP (fun e => e == t) ≤ c) ∧
    check_neighbors_at_least_v1 ["C"] "C" 0 = true ∧
    check_neighbors_at_least ["C"] "C" 0 = false := by
  refine ⟨?_, by decide, by decide⟩
  intro pattern t c
  simp [check_neighbors_at_least, count_foldl]

instance : DecidableEq (String × Option (Nat × String × List String)) :=
  inferInstance

/-- C8: for a compound consisting of one carbon atom bonded to four
hydrogen atoms, the typing run resolves the carbon's opls_type to the
methane carbon rule identifier "138" and each hydrogen's opls_type to the
alkane hydrogen rule identifier "140" (no reduction warnings are emitted;
the loop stabilizes on its second pass, without the max-iteration
warning). -/
theorem C8_methane_scenario :
    atomtypes_opls methane =
      ([("138", none), ("140", none), ("140", none), ("140", none), ("140", none)],
        2, false) := by
  decide

/-! ## State lookup and update lemmas -/

theorem wl_set (st : St) (i : Nat) (v : List String × List String) (j : Nat) :
    wl (st.set i v) j = if i = j ∧ i < st.length then v.1 else wl st j := by
  simp only [wl, List.getD_eq_getElem?_getD, List.getElem?_set]
  by_cases h1 : i = j
  · subst h1
    by_cases h2 : i < st.length
    · simp [h2]
    · simp [h2, List.getElem?_eq_none (Nat.le_of_not_lt h2)]
  · simp [h1]

theorem bl_set (st : St) (i : Nat) (v : List String × List String) (j : Nat) :
    bl (st.set i v) j = if i = j ∧ i < st.length then v.2 else bl st j := by
  simp only [bl, List.getD_eq_getElem?_getD, List.getElem?_set]
  by_cases h1 : i = j
  · subst h1
    by_cases h2 : i < st.length
    · simp [h2]
    · simp [h2, List.getElem?_eq_none (Nat.le_of_not_lt h2)]
  · simp [h1]

/-- `run_rule` either leaves the state unchanged or writes the extended
white- and blacklists into the visited atom's slot. -/
theorem run_rule_cases (m : Mol) (st : St) (i : Nat) (r : OplsRule) :
    run_rule m st i r = st ∨
    run_rule m st i r =
      st.set i (osAddAll (wl st i) r.wlIds, osAddAll (bl st i) r.blIds) := by
  unfold run_rule
  split
  · exact .inl rfl
  · split
    · exact .inr rfl
    · exact .inl rfl

/-- Any single rule only ever extends (as a prefix) the white- and
blacklist of any atom. -/
theorem run_rule_grows (m : Mol) (st : St) (i : Nat) (r : OplsRule) (j : Nat) :
    wl st j <+: wl (run_rule m st i r) j ∧ bl st j <+: bl (run_rule m st i r) j := by
  rcases run_rule_cases m st i r with h | h <;> rw [h]
  · exact ⟨List.prefix_rfl, List.prefix_rfl⟩
  · rw [wl_set, bl_set]
    by_cases hc : i = j ∧ i < st.length
    · rw [if_pos hc, if_pos hc]
      rcases hc with ⟨rfl, _⟩
      exact ⟨osAddAll_grows _ _, osAddAll_grows _ _⟩
    · rw [if_neg hc, if_neg hc]
      exact ⟨List.prefix_rfl, List.prefix_rfl⟩

/-- `run_rule` changes no atom slot other than the visited one. -/
theorem run_rule_ne (m : Mol) (st : St) (i : Nat) (r : OplsRule) (j : Nat)
    (h : j ≠ i) :
    wl (run_rule m st i r) j = wl st j ∧ bl (run_rule m st i r) j = bl st j := by
  rcases run_rule_cases m st i r with hc | hc <;> rw [hc]
  · exact ⟨rfl, rfl⟩
  · rw [wl_set, bl_set, if_neg (fun hx => h hx.1.symm), if_neg (fun hx => h hx.1.symm)]
    exact ⟨rfl, rfl⟩

theorem runAtomRules_grows (cat : List OplsRule) (m : Mol) (st : St) (i j : Nat) :
    wl st j <+: wl (runAtomRules cat m st i) j ∧
      bl st j <+: bl (runAtomRules cat m st i) j := by
  unfold runAtomRules
  generalize rulesFor cat (m.kind i) (m.adj i).length = rs
  induction rs generalizing st with
  | nil => exact ⟨List.prefix_rfl, List.prefix_rfl⟩
  | cons r rs ih =>
    have h1 := run_rule_grows m st i r j
    have h2 := ih (run_rule m st i r)
    exact ⟨h1.1.trans h2.1, h1.2.trans h2.2⟩

theorem runAtomRules_ne (cat : List OplsRule) (m : Mol) (st : St) (i j : Nat)
    (h : j ≠ i) :
    wl (runAtomRules cat m st i) j = wl st j ∧
      bl (runAtomRules cat m st i) j = bl st j := by
  unfold runAtomRules
  generalize rulesFor cat (m.kind i) (m.adj i).length = rs
  induction rs generalizing st with
  | nil => exact ⟨rfl, rfl⟩
  | cons r rs ih =>
    have h1 := run_rule_ne m st i r j h
    have h2 := ih (run_rule m st i r)
    exact ⟨h2.1.trans h1.1, h2.2.trans h1.2⟩

/-! ## Nodup invariant: the engine's lists are duplicate-free sets -/

theorem osAdd_nodup {s : List String} (x : String) (h : s.Nodup) :
    (osAdd s x).Nodup := by
  unfold osAdd
  split
  · exact h
  · next hx =>
    rw [List.nodup_append]
    refine ⟨h, List.nodup_singleton x, ?_⟩
    intro a ha hax
    simp only [List.mem_singleton] at hax
    subst hax
    exact hx ha

theorem osAddAll_nodup (xs : List String) :
    ∀ {s : List String}, s.Nodup → (osAddAll s xs).Nodup := by
  induction xs with
  | nil => intro s h; exact h
  | cons a as ih => intro s h; exact ih (osAdd_nodup a h)

/-- Every atom slot of a state holds duplicate-free lists. -/
def stNodup (st : St) : Prop := ∀ i, (wl st i).Nodup ∧ (bl st i).Nodup

theorem stNodup_prepare (m : Mol) : stNodup (prepare m) := by
  intro i
  constructor <;>
    · simp only [wl, bl, prepare, List.getD_eq_getElem?_getD, List.getElem?_replicate]
      split <;> simp

theorem stNodup_run_rule (m : Mol) (st : St) (i : Nat) (r : OplsRule)
    (h : stNodup st) : stNodup (run_rule m st i r) := by
  rcases run_rule_cases m st i r with hc | hc <;> rw [hc]
  · exact h
  · intro j
    rw [wl_set, bl_set]
    split
    · exact ⟨osAddAll_nodup _ (h i).1, osAddAll_nodup _ (h i).2⟩
    · exact h j

theorem stNodup_runAtomRules (cat : List OplsRule) (m : Mol) (st : St) (i : Nat)
    (h : stNodup st) : stNodup (runAtomRules cat m st i) := by
  unfold runAtomRules
  generalize rulesFor cat (m.kind i) (m.adj i).length = rs
  induction rs generalizing st with
  | nil => exact h
  | cons r rs ih => exact ih (run_rule m st i r) (stNodup_run_rule m st i r h)

theorem stNodup_passFold (cat : List OplsRule) (m : Mol) :
    ∀ (l : List Nat) (x : St × Nat × Nat), stNodup x.1 →
      stNodup (l.foldl (passStep cat m) x).1 := by
  intro l
  induction l with
  | nil => intro x h; exact h
  | cons i is ih =>
    intro x h
    refine ih (passStep cat m x i) ?_
    unfold passStep
    dsimp only
    split
    · exact h
    · exact stNodup_runAtomRules cat m x.1 i h

theorem stNodup_passSt (cat : List OplsRule) (m : Mol) (k : Nat) :
    stNodup (passSt cat m k) := by
  induction k with
  | zero => exact stNodup_prepare m
  | succ k ih => exact stNodup_passFold cat m (List.range m.n) _ ih

/-- C1: type reduction is deterministic and never silently wrong.  After
the fixed-point loop the engine's lists are genuine (duplicate-free) sets,
and for every non-ghost atom index the reducer writes the unique element
of (whitelist − blacklist) as the atom's opls_type with no warning when
that set has exactly one element, and otherwise writes the sentinel "XXX"
together with the warning data (atom index, element, candidate set); every
non-ghost atom receives an entry, so the run continues past failures. -/
theorem C1_reduction_deterministic :
    (∀ cat m k i, (wl (passSt cat m k) i).Nodup ∧ (bl (passSt cat m k) i).Nodup) ∧
    ∀ m st, (reduceTypes m st).length = (nonGhostAtoms m).length ∧
      ∀ (i a : Nat), (nonGhostAtoms m)[i]? = some a →
        (∀ t, (wl st a).filter (fun r => decide (r ∉ bl st a)) = [t] →
          (reduceTypes m st)[i]? = some (t, none)) ∧
        (((wl st a).filter (fun r => decide (r ∉ bl st a))).length ≠ 1 →
          (reduceTypes m st)[i]? =
            some ("XXX", some (i, m.kind a,
              (wl st a).filter (fun r => decide (r ∉ bl st a))))) := by
  constructor
  · intro cat m k i
    exact stNodup_passSt cat m k i
  · intro m st
    constructor
    · simp [reduceTypes]
    · intro i a ha
      have key : (reduceTypes m st)[i]? =
          some (match (wl st a).filter (fun r => decide (r ∉ bl st a)) with
            | [t] => (t, none)
            | diff => ("XXX", some (i, m.kind a, diff))) := by
        simp only [reduceTypes, List.getElem?_map, List.getElem?_enumFrom, ha,
          Option.map_some', Nat.zero_add]
      constructor
      · intro t ht
        rw [key, ht]
      · intro hne
        rcases hfil : (wl st a).filter (fun r => decide (r ∉ bl st a)) with _ | ⟨x, _ | ⟨y, rest⟩⟩
        · rw [key, hfil]
        · rw [hfil] at hne
          simp at hne
        · rw [key, hfil]

/-- Instantiation of the reduction theorem: on methane with a state whose
carbon candidate set is exactly one and whose first hydrogen has an empty
candidate set, the carbon gets its type and the hydrogen gets the sentinel
with warning data. -/
theorem C1_reduction_deterministic_witness :
    (reduceTypes methane [(["138"], []), (["140"], ["140"])])[0]? =
        some ("138", none) ∧
    (reduceTypes methane [(["138"], []), (["140"], ["140"])])[1]? =
        some ("XXX", some (1, "H", [])) := by
  constructor
  · exact ((C1_reduction_deterministic.2 methane
      [(["138"], []), (["140"], ["140"])]).2 0 0 (by decide)).1 "138" (by decide)
  · exact ((C1_reduction_deterministic.2 methane
      [(["138"], []), (["140"], ["140"])]).2 1 1 (by decide)).2 (by decide)

/-! ## Pass-level lemmas -/

theorem passStep_fst (cat : List OplsRule) (m : Mol) (x : St × Nat × Nat) (i : Nat) :
    (passStep cat m x i).1 =
      if m.kind i = "G" then x.1 else runAtomRules cat m x.1 i := by
  unfold passStep
  dsimp only
  split <;> rfl

theorem passStep_old (cat : List OplsRule) (m : Mol) (x : St × Nat × Nat) (i : Nat) :
    (passStep cat m x i).2.1 = x.2.1 + (wl x.1 i).length + (bl x.1 i).length := by
  unfold passStep
  dsimp only
  split <;> rfl

theorem passStep_new (cat : List OplsRule) (m : Mol) (x : St × Nat × Nat) (i : Nat) :
    (passStep cat m x i).2.2 =
      if m.kind i = "G" then x.2.2
      else x.2.2 + (wl (runAtomRules cat m x.1 i) i).length +
        (bl (runAtomRules cat m x.1 i) i).length := by
  unfold passStep
  dsimp only
  split <;> rfl

theorem passFold_grows (cat : List OplsRule) (m : Mol) :
    ∀ (l : List Nat) (x : St × Nat × Nat) (j : Nat),
      wl x.1 j <+: wl (l.foldl (passStep cat m) x).1 j ∧
        bl x.1 j <+: bl (l.foldl (passStep cat m) x).1 j := by
  intro l
  induction l with
  | nil => intro x j; exact ⟨List.prefix_rfl, List.prefix_rfl⟩
  | cons i is ih =>
    intro x j
    have hstep : wl x.1 j <+: wl (passStep cat m x i).1 j ∧
        bl x.1 j <+: bl (passStep cat m x i).1 j := by
      rw [passStep_fst]
      split
      · exact ⟨List.prefix_rfl, List.prefix_rfl⟩
      · exact runAtomRules_grows cat m x.1 i j
    have h2 := ih (passStep cat m x i) j
    exact ⟨hstep.1.trans h2.1, hstep.2.trans h2.2⟩

theorem passFold_state_ne (cat : List OplsRule) (m : Mol) :
    ∀ (l : List Nat) (x : St × Nat × Nat) (j : Nat), j ∉ l →
      wl (l.foldl (passStep cat m) x).1 j = wl x.1 j ∧
        bl (l.foldl (passStep cat m) x).1 j = bl x.1 j := by
  intro l
  induction l with
  | nil => intro x j _; exact ⟨rfl, rfl⟩
  | cons i is ih =>
    intro x j hj
    have hji : j ≠ i := fun h => hj (h ▸ List.mem_cons_self i is)
    have hjis : j ∉ is := fun h => hj (List.mem_cons_of_mem i h)
    have hstep : wl (passStep cat m x i).1 j = wl x.1 j ∧
        bl (passStep cat m x i).1 j = bl x.1 j := by
      rw [passStep_fst]
      split
      · exact ⟨rfl, rfl⟩
      · exact runAtomRules_ne cat m x.1 i j hji
    have h2 := ih (passStep cat m x i) j hjis
    exact ⟨h2.1.trans hstep.1, h2.2.trans hstep.2⟩

theorem runPass_grows (cat : List OplsRule) (m : Mol) (st : St) (j : Nat) :
    wl st j <+: wl (runPass cat m st).1 j ∧
      bl st j <+: bl (runPass cat m st).1 j :=
  passFold_grows cat m (List.range m.n) (st, 0, 0) j

/-- C6: during a typing run every operation of the engine only adds rule
identifiers at the end of an atom's whitelist and blacklist and never
removes any: a single rule application, the whole rule bucket of one atom,
a full pass, and hence consecutive fixed-point passes each leave every
atom's previous whitelist and blacklist as a prefix of the new one (so
both sets grow monotonically from one pass to the next). -/
theorem C6_monotone_growth :
    (∀ m st i r j,
      wl st j <+: wl (run_rule m st i r) j ∧ bl st j <+: bl (run_rule m st i r) j) ∧
    (∀ cat m st i j,
      wl st j <+: wl (runAtomRules cat m st i) j ∧
        bl st j <+: bl (runAtomRules cat m st i) j) ∧
    (∀ cat m st j,
      wl st j <+: wl (runPass cat m st).1 j ∧
        bl st j <+: bl (runPass cat m st).1 j) ∧
    (∀ cat m k j,
      wl (passSt cat m k) j <+: wl (passSt cat m (k + 1)) j ∧
        bl (passSt cat m k) j <+: bl (passSt cat m (k + 1)) j) := by
  refine ⟨run_rule_grows, runAtomRules_grows, runPass_grows, ?_⟩
  intro cat m k j
  exact runPass_grows cat m (passSt cat m k) j

theorem passFold_old (cat : List OplsRule) (m : Mol) :
    ∀ (l : List Nat) (x : St × Nat × Nat), l.Nodup →
      (l.foldl (passStep cat m) x).2.1 =
        x.2.1 + (l.map (fun i => (wl x.1 i).length + (bl x.1 i).length)).sum := by
  intro l
  induction l with
  | nil => intro x _; simp
  | cons i is ih =>
    intro x hnd
    have hnd2 := (List.nodup_cons.1 hnd).2
    have hni : i ∉ is := (List.nodup_cons.1 hnd).1
    rw [List.foldl_cons, ih (passStep cat m x i) hnd2, passStep_old]
    have hmap : is.map (fun j => (wl (passStep cat m x i).1 j).length +
        (bl (passStep cat m x i).1 j).length) =
        is.map (fun j => (wl x.1 j).length + (bl x.1 j).length) := by
      refine List.map_congr_left ?_
      intro j hj
      have hji : j ≠ i := fun h => hni (h ▸ hj)
      have : wl (passStep cat m x i).1 j = wl x.1 j ∧
          bl (passStep cat m x i).1 j = bl x.1 j := by
        rw [passStep_fst]
        split
        · exact ⟨rfl, rfl⟩
        · exact runAtomRules_ne cat m x.1 i j hji
      rw [this.1, this.2]
    rw [hmap, List.map_cons, List.sum_cons]
    omega

theorem passFold_new (cat : List OplsRule) (m : Mol) :
    ∀ (l : List Nat) (x : St × Nat × Nat), l.Nodup →
      (l.foldl (passStep cat m) x).2.2 =
        x.2.2 + (l.map (fun i => if m.kind i = "G" then 0
          else (wl (l.foldl (passStep cat m) x).1 i).length +
            (bl (l.foldl (passStep cat m) x).1 i).length)).sum := by
  intro l
  induction l with
  | nil => intro x _; simp
  | cons i is ih =>
    intro x hnd
    have hnd2 := (List.nodup_cons.1 hnd).2
    have hni : i ∉ is := (List.nodup_cons.1 hnd).1
    rw [List.foldl_cons, ih (passStep cat m x i) hnd2]
    have hkeep : wl (is.foldl (passStep cat m) (passStep cat m x i)).1 i =
        wl (passStep cat m x i).1 i ∧
        bl (is.foldl (passStep cat m) (passStep cat m x i)).1 i =
          bl (passStep cat m x i).1 i :=
      passFold_state_ne cat m is (passStep cat m x i) i hni
    rw [List.map_cons, List.sum_cons]
    by_cases hg : m.kind i = "G"
    · have hstep2 : (passStep cat m x i).2.2 = x.2.2 := by rw [passStep_new, if_pos hg]
      rw [hstep2, if_pos hg]
      omega
    · have hstep2 : (passStep cat m x i).2.2 =
          x.2.2 + (wl (runAtomRules cat m x.1 i) i).length +
            (bl (runAtomRules cat m x.1 i) i).length := by
        rw [passStep_new, if_neg hg]
      have hfst : (passStep cat m x i).1 = runAtomRules cat m x.1 i := by
        rw [passStep_fst, if_neg hg]
      rw [hstep2, if_neg hg, hkeep.1, hkeep.2, hfst]
      omega

theorem runPass_old (cat : List OplsRule) (m : Mol) (st : St) :
    (runPass cat m st).2.1 = totalLen m st := by
  unfold runPass totalLen
  rw [passFold_old cat m (List.range m.n) (st, 0, 0) (List.nodup_range _)]
  simp

/-- A pass leaves a ghost atom's slot untouched: ghosts are skipped, and
rules write only to the (never ghost) atom they run on. -/
theorem ghostSlot_passFold (cat : List OplsRule) (m : Mol) :
    ∀ (l : List Nat) (x : St × Nat × Nat) (i : Nat), m.kind i = "G" →
      wl (l.foldl (passStep cat m) x).1 i = wl x.1 i ∧
        bl (l.foldl (passStep cat m) x).1 i = bl x.1 i := by
  intro l
  induction l with
  | nil => intro x i _; exact ⟨rfl, rfl⟩
  | cons a as ih =>
    intro x i hi
    have hstep : wl (passStep cat m x a).1 i = wl x.1 i ∧
        bl (passStep cat m x a).1 i = bl x.1 i := by
      rw [passStep_fst]
      split
      · exact ⟨rfl, rfl⟩
      · next hg =>
        have hia : i ≠ a := fun h => hg (h ▸ hi)
        exact runAtomRules_ne cat m x.1 a i hia
    have h2 := ih (passStep cat m x a) i hi
    rw [List.foldl_cons]
    exact ⟨h2.1.trans hstep.1, h2.2.trans hstep.2⟩

theorem ghostsEmpty_prepare (m : Mol) : ghostsEmpty m (prepare m) := by
  intro i _
  constructor <;>
    · simp only [wl, bl, prepare, List.getD_eq_getElem?_getD, List.getElem?_replicate]
      split <;> simp

theorem ghostsEmpty_runPass (cat : List OplsRule) (m : Mol) (st : St)
    (h : ghostsEmpty m st) : ghostsEmpty m (runPass cat m st).1 := by
  intro i hi
  have hk := ghostSlot_passFold cat m (List.range m.n) (st, 0, 0) i hi
  unfold runPass
  rw [hk.1, hk.2]
  exact h i hi

theorem ghostsEmpty_passSt (cat : List OplsRule) (m : Mol) (k : Nat) :
    ghostsEmpty m (passSt cat m k) := by
  induction k with
  | zero => exact ghostsEmpty_prepare m
  | succ k ih => exact ghostsEmpty_runPass cat m (passSt cat m k) ih

theorem runPass_new (cat : List OplsRule) (m : Mol) (st : St)
    (h : ghostsEmpty m st) :
    (runPass cat m st).2.2 = totalLen m (runPass cat m st).1 := by
  have hge : ghostsEmpty m (runPass cat m st).1 := ghostsEmpty_runPass cat m st h
  unfold totalLen
  unfold runPass at hge ⊢
  rw [passFold_new cat m (List.range m.n) (st, 0, 0) (List.nodup_range _)]
  rw [Nat.zero_add]
  refine congrArg List.sum (List.map_congr_left ?_)
  intro i _
  by_cases hg : m.kind i = "G"
  · rw [if_pos hg, (hge i hg).1, (hge i hg).2]
    rfl
  · rw [if_neg hg]

/-- Behavior of the pass loop run with `fuel` remaining passes from the
state reached after `k` passes: it runs at least one and at most `fuel`
further passes, stops at the first stable pass, returns the state of the
last pass it ran, reports no warning exactly when its last pass was
stable, and uses all its fuel whenever it warns. -/
theorem engineAux_spec (cat : List OplsRule) (m : Mol) :
    ∀ (fuel k : Nat), 0 < fuel →
      (engineAux cat m fuel (passSt cat m k)).2.1 ≤ fuel ∧
      1 ≤ (engineAux cat m fuel (passSt cat m k)).2.1 ∧
      (engineAux cat m fuel (passSt cat m k)).1 =
        passSt cat m (k + (engineAux cat m fuel (passSt cat m k)).2.1) ∧
      (∀ d, d + 1 < (engineAux cat m fuel (passSt cat m k)).2.1 →
        ¬ stableAt cat m (k + d)) ∧
      ((engineAux cat m fuel (passSt cat m k)).2.2 = false ↔
        stableAt cat m (k + (engineAux cat m fuel (passSt cat m k)).2.1 - 1)) ∧
      ((engineAux cat m fuel (passSt cat m k)).2.2 = true →
        (engineAux cat m fuel (passSt cat m k)).2.1 = fuel) := by
  intro fuel
  induction fuel with
  | zero => intro k h; exact absurd h (Nat.lt_irrefl 0)
  | succ f ih =>
    intro k _
    have hunf : engineAux cat m (f + 1) (passSt cat m k) =
        if (runPass cat m (passSt cat m k)).2.1 = (runPass cat m (passSt cat m k)).2.2
        then ((runPass cat m (passSt cat m k)).1, 1, false)
        else ((engineAux cat m f (passSt cat m (k + 1))).1,
          (engineAux cat m f (passSt cat m (k + 1))).2.1 + 1,
          (engineAux cat m f (passSt cat m (k + 1))).2.2) := rfl
    by_cases hs : stableAt cat m k
    · rw [hunf, if_pos (show (runPass cat m (passSt cat m k)).2.1 =
        (runPass cat m (passSt cat m k)).2.2 from hs)]
      dsimp only
      refine ⟨by omega, by omega, rfl, ?_, ?_, ?_⟩
      · intro d hd
        omega
      · simp only [Nat.add_sub_cancel]
        exact ⟨fun _ => hs, fun _ => trivial⟩
      · intro h
        cases h
    · rw [hunf, if_neg (show ¬ (runPass cat m (passSt cat m k)).2.1 =
        (runPass cat m (passSt cat m k)).2.2 from hs)]
      dsimp only
      rcases Nat.eq_zero_or_pos f with hf | hf
      · subst hf
        have hz : (engineAux cat m 0 (passSt cat m (k + 1))).2.1 = 0 := rfl
        refine ⟨by omega, by omega, ?_, ?_, ?_, ?_⟩
        · show passSt cat m (k + 1) = passSt cat m (k + (0 + 1))
          rfl
        · intro d hd
          have : d = 0 := by
            have : (engineAux cat m 0 (passSt cat m (k + 1))).2.1 = 0 := rfl
            omega
          subst this
          simpa using hs
        · constructor
          · intro h
            cases h
          · intro h
            have : (engineAux cat m 0 (passSt cat m (k + 1))).2.1 = 0 := rfl
            rw [this] at h
            simp at h
            exact absurd h hs
        · intro _
          rfl
      · have H := ih (k + 1) hf
        refine ⟨by omega, by omega, ?_, ?_, ?_, ?_⟩
        · have harith : k + ((engineAux cat m f (passSt cat m (k + 1))).2.1 + 1) =
              (k + 1) + (engineAux cat m f (passSt cat m (k + 1))).2.1 := by omega
          rw [harith]
          exact H.2.2.1
        · intro d hd
          rcases d with _ | d'
          · simpa using hs
          · have harith : k + (d' + 1) = (k + 1) + d' := by omega
            rw [harith]
            exact H.2.2.2.1 d' (by omega)
        · have harith : k + ((engineAux cat m f (passSt cat m (k + 1))).2.1 + 1) - 1 =
              (k + 1) + (engineAux cat m f (passSt cat m (k + 1))).2.1 - 1 := by omega
          rw [harith]
          exact H.2.2.2.2.1
        · intro h
          have := H.2.2.2.2.2 h
          omega

/-- C2: for every molecule and rule catalog the fixed-point resolver runs
at least one and at most 10 passes, so it always terminates within the
pass cap; it exits early at the first pass whose accumulated old/new
summed cardinalities agree — and, by locality of rule application and the
emptiness of ghost slots, a pass is stable in this sense exactly when the
summed whitelist+blacklist cardinality over all atoms is unchanged across
the pass (last conjunct); it proceeds with the state of the last pass it
ran, and it emits the non-fatal max-iteration warning exactly when all 10
passes ran and the last was still unstable. -/
theorem C2_pass_loop_terminates :
    ∀ (cat : List OplsRule) (m : Mol),
      (engine cat m).2.1 ≤ 10 ∧
      1 ≤ (engine cat m).2.1 ∧
      (engine cat m).1 = passSt cat m (engine cat m).2.1 ∧
      (∀ d, d + 1 < (engine cat m).2.1 → ¬ stableAt cat m d) ∧
      ((engine cat m).2.2 = false ↔ stableAt cat m ((engine cat m).2.1 - 1)) ∧
      ((engine cat m).2.2 = true → (engine cat m).2.1 = 10) ∧
      (∀ k, stableAt cat m k ↔
        totalLen m (passSt cat m (k + 1)) = totalLen m (passSt cat m k)) := by
  intro cat m
  have H := engineAux_spec cat m 10 0 (by omega)
  have hE : engine cat m = engineAux cat m 10 (passSt cat m 0) := rfl
  rw [hE]
  refine ⟨H.1, H.2.1, ?_, ?_, ?_, H.2.2.2.2.2, ?_⟩
  · simpa using H.2.2.1
  · intro d hd
    simpa using H.2.2.2.1 d (by simpa using hd)
  · simpa using H.2.2.2.2.1
  · intro k
    unfold stableAt
    rw [runPass_old]
    constructor
    · intro h
      rw [runPass_new cat m _ (ghostsEmpty_passSt cat m k)] at h
      exact h.symm
    · intro h
      rw [runPass_new cat m _ (ghostsEmpty_passSt cat m k)]
      exact h.symm

/-- Instantiation of the loop theorem on methane with the registered
catalog: its run uses at most the cap, its first pass is unstable (rules
fire and the sums change) and its second pass is stable. -/
theorem C2_pass_loop_terminates_witness :
    (engine ruleCatalog methane).2.1 ≤ 10 ∧
      ¬ stableAt ruleCatalog methane 0 ∧ stableAt ruleCatalog methane 1 := by
  have H := C2_pass_loop_terminates ruleCatalog methane
  refine ⟨H.1, ?_, ?_⟩
  · exact H.2.2.2.1 0 (by decide)
  · have h2 : (engine ruleCatalog methane).2.2 = false := by decide
    have h3 : (engine ruleCatalog methane).2.1 - 1 = 1 := by decide
    have h4 := H.2.2.2.2.1.mp h2
    rwa [h3] at h4

/-- Test for the Element decorator. -/
def isElementDec : OplsDec → Bool
  | .element _ => true
  | _ => false

/-- C4 counterexample: at a concrete rule with two Element decorators the
catalog-build scan raises (a fatal AssertionError, modelled as
`Except.error`) instead of warning, and dispatching a rule identifier that
is not in the catalog raises a fatal KeyError — so catalog authoring
errors are not all non-fatal and the typing engine does have fatal error
paths. -/
theorem C4_fatal_error_paths_counterexample :
    elementScan [.element "C", .nbrCount 4, .element "C"] none =
      .error "Duplicate element type decorators on rule" ∧
    run_rule_lookup ruleCatalog "999" =
      .error "Rule for 999 not implemented" := by
  constructor
  · rfl
  · rfl

/-- C4 amended: a duplicate element declaration on one rule is fatal, not
a warning: the catalog-build scan of a rule's decorator list raises (an
AssertionError, modelled `Except.error`) precisely when the list holds two
or more Element decorators; and rule dispatch for an identifier absent
from the catalog raises a fatal KeyError ("Rule for ... not implemented").
Both are code paths of the typing engine that abort the whole run. -/
theorem C4_fatal_error_paths :
    (∀ decs : List OplsDec,
      (∃ msg, elementScan decs none = Except.error msg) ↔
        2 ≤ decs.countP isElementDec) ∧
    (∀ (cat : List OplsRule) (rid : String), (∀ r ∈ cat, r.num ≠ rid) →
      run_rule_lookup cat rid = .error ("Rule for " ++ rid ++ " not implemented")) := by
  constructor
  · have key : ∀ decs : List OplsDec,
        ((∃ msg, elementScan decs none = Except.error msg) ↔
          2 ≤ decs.countP isElementDec) ∧
        (∀ e, (∃ msg, elementScan decs (some e) = Except.error msg) ↔
          1 ≤ decs.countP isElementDec) := by
      intro decs
      induction decs with
      | nil =>
        constructor
        · simp [elementScan]
        · intro e
          simp [elementScan]
      | cons d ds ih =>
        cases d with
        | element e' =>
          constructor
          · rw [show elementScan (.element e' :: ds) none = elementScan ds (some e')
              from rfl]
            rw [ih.2 e']
            simp [List.countP_cons, isElementDec]
          · intro e
            constructor
            · intro _
              simp [List.countP_cons, isElementDec]
            · intro _
              exact ⟨"Duplicate element type decorators on rule", rfl⟩
        | nbrCount c =>
          constructor
          · rw [show elementScan (.nbrCount c :: ds) none = elementScan ds none
              from rfl]
            rw [ih.1]
            simp [List.countP_cons, isElementDec]
          · intro e
            rw [show elementScan (.nbrCount c :: ds) (some e) = elementScan ds (some e)
              from rfl]
            rw [ih.2 e]
            simp [List.countP_cons, isElementDec]
        | wlDec ids =>
          constructor
          · rw [show elementScan (.wlDec ids :: ds) none = elementScan ds none
              from rfl]
            rw [ih.1]
            simp [List.countP_cons, isElementDec]
          · intro e
            rw [show elementScan (.wlDec ids :: ds) (some e) = elementScan ds (some e)
              from rfl]
            rw [ih.2 e]
            simp [List.countP_cons, isElementDec]
        | blDec ids =>
          constructor
          · rw [show elementScan (.blDec ids :: ds) none = elementScan ds none
              from rfl]
            rw [ih.1]
            simp [List.countP_cons, isElementDec]
          · intro e
            rw [show elementScan (.blDec ids :: ds) (some e) = elementScan ds (some e)
              from rfl]
            rw [ih.2 e]
            simp [List.countP_cons, isElementDec]
    intro decs
    exact (key decs).1
  · intro cat rid h
    unfold run_rule_lookup
    have : cat.find? (fun r => r.num == rid) = none := by
      rw [List.find?_eq_none]
      intro r hr
      simpa using h r hr
    rw [this]

/-- Instantiation of the amended theorem at concrete inputs. -/
theorem C4_fatal_error_paths_witness :
    (∃ msg, elementScan [.element "C", .element "H"] none = Except.error msg) ∧
    run_rule_lookup [opls_138] "999" = .error "Rule for 999 not implemented" := by
  constructor
  · exact (C4_fatal_error_paths.1 [.element "C", .element "H"]).mpr (by decide)
  · exact C4_fatal_error_paths.2 [opls_138] "999" (by decide)

/-! ## Reachability: the iterated expansion computes transitive reachability -/

theorem mem_osAdd (s : List String) (x y : String) :
    y ∈ osAdd s x ↔ y ∈ s ∨ y = x := by
  unfold osAdd
  split
  · next h =>
    constructor
    · exact fun hy => Or.inl hy
    · rintro (hy | rfl)
      · exact hy
      · exact h
  · simp

theorem mem_osAddAll (xs : List String) :
    ∀ (s : List String) (y : String), y ∈ osAddAll s xs ↔ y ∈ s ∨ y ∈ xs := by
  induction xs with
  | nil => intro s y; simp [osAddAll]
  | cons a as ih =>
    intro s y
    rw [osAddAll_cons, ih, mem_osAdd]
    simp only [List.mem_cons]
    tauto

theorem mem_succs (edges : List (String × String)) (a b : String) :
    b ∈ succs edges a ↔ (a, b) ∈ edges := by
  unfold succs
  simp only [List.mem_map, List.mem_filter]
  constructor
  · rintro ⟨e, ⟨he, ha⟩, rfl⟩
    have : e.1 = a := by simpa using ha
    rw [← this]
    exact he
  · intro h
    exact ⟨(a, b), ⟨h, by simp⟩, rfl⟩

theorem mem_reachFold (edges : List (String × String)) :
    ∀ (l : List String) (acc : List String) (x : String),
      x ∈ l.foldl (fun a v => osAddAll a (succs edges v)) acc ↔
        x ∈ acc ∨ ∃ v ∈ l, x ∈ succs edges v := by
  intro l
  induction l with
  | nil => intro acc x; simp
  | cons a as ih =>
    intro acc x
    rw [List.foldl_cons, ih, mem_osAddAll]
    simp only [List.mem_cons]
    constructor
    · rintro ((h | h) | ⟨v, hv, hx⟩)
      · exact Or.inl h
      · exact Or.inr ⟨a, Or.inl rfl, h⟩
      · exact Or.inr ⟨v, Or.inr hv, hx⟩
    · rintro (h | ⟨v, (rfl | hv), hx⟩)
      · exact Or.inl (Or.inl h)
      · exact Or.inl (Or.inr hx)
      · exact Or.inr ⟨v, hv, hx⟩

theorem mem_reachStep (edges : List (String × String)) (vs : List String) (x : String) :
    x ∈ reachStep edges vs ↔ x ∈ vs ∨ ∃ v ∈ vs, x ∈ succs edges v :=
  mem_reachFold edges vs vs x

theorem reachStep_grows (edges : List (String × String)) (vs : List String) :
    vs <+: reachStep edges vs := by
  unfold reachStep
  generalize vs = l
  suffices h : ∀ (l : List String) (acc : List String),
      acc <+: l.foldl (fun a v => osAddAll a (succs edges v)) acc by
    exact h l _
  intro l
  induction l with
  | nil => intro acc; exact List.prefix_rfl
  | cons a as ih =>
    intro acc
    exact (osAddAll_grows (succs edges a) acc).trans (ih _)

theorem reachFold_nodup (edges : List (String × String)) :
    ∀ (l : List String) (acc : List String), acc.Nodup →
      (l.foldl (fun a v => osAddAll a (succs edges v)) acc).Nodup := by
  intro l
  induction l with
  | nil => intro acc h; exact h
  | cons a as ih =>
    intro acc h
    exact ih _ (osAddAll_nodup _ h)

theorem reachStep_nodup (edges : List (String × String)) (vs : List String)
    (h : vs.Nodup) : (reachStep edges vs).Nodup :=
  reachFold_nodup edges vs vs h

/-- The universe every expansion stays inside: the seed plus all edge
targets. -/
theorem reachStep_subset_univ (edges : List (String × String)) (vs u : List String)
    (hu : ∀ x ∈ vs, x ∈ u) (hto : ∀ e ∈ edges, e.2 ∈ u) :
    ∀ x ∈ reachStep edges vs, x ∈ u := by
  intro x hx
  rcases (mem_reachStep edges vs x).1 hx with h | ⟨v, _, hs⟩
  · exact hu x h
  · exact hto _ ((mem_succs edges v x).1 hs)

/-- A stable collection is closed under successors. -/
theorem stable_closed (edges : List (String × String)) (vs : List String)
    (h : reachStep edges vs = vs) :
    ∀ v ∈ vs, ∀ x, (v, x) ∈ edges → x ∈ vs := by
  intro v hv x he
  have : x ∈ reachStep edges vs :=
    (mem_reachStep edges vs x).2 (Or.inr ⟨v, hv, (mem_succs edges v x).2 he⟩)
  rwa [h] at this

theorem reachClosure_of_stable (edges : List (String × String)) :
    ∀ (f : Nat) (vs : List String), reachStep edges vs = vs →
      reachClosure edges f vs = vs := by
  intro f
  induction f with
  | zero => intro vs _; rfl
  | succ f ih =>
    intro vs h
    show reachClosure edges f (reachStep edges vs) = vs
    rw [h]
    exact ih vs h

/-- Either the iterated expansion has stabilized, or it grew by at least
one node per iteration. -/
theorem reachClosure_stable_or_grows (edges : List (String × String)) :
    ∀ (f : Nat) (vs : List String),
      reachStep edges (reachClosure edges f vs) = reachClosure edges f vs ∨
        vs.length + f ≤ (reachClosure edges f vs).length := by
  intro f
  induction f with
  | zero => intro vs; right; simp [reachClosure]
  | succ f ih =>
    intro vs
    by_cases h : reachStep edges vs = vs
    · left
      rw [show reachClosure edges (f + 1) vs = reachClosure edges f (reachStep edges vs)
          from rfl, h, reachClosure_of_stable edges f vs h]
      exact h
    · rcases ih (reachStep edges vs) with hs | hg
      · left
        exact hs
      · right
        have hpre := reachStep_grows edges vs
        have hlen : vs.length < (reachStep edges vs).length := by
          rcases Nat.lt_or_ge vs.length (reachStep edges vs).length with h1 | h1
          · exact h1
          · exact absurd (List.IsPrefix.eq_of_length_le hpre h1).symm h
        show vs.length + (f + 1) ≤ (reachClosure edges f (reachStep edges vs)).length
        omega

theorem nodup_subset_length (l u : List String) (hn : l.Nodup)
    (hsub : ∀ x ∈ l, x ∈ u) : l.length ≤ u.length := by
  have h1 : l.toFinset.card = l.length := List.toFinset_card_of_nodup hn
  have h2 : l.toFinset ⊆ u.toFinset := by
    intro x hx
    rw [List.mem_toFinset] at hx ⊢
    exact hsub x hx
  calc l.length = l.toFinset.card := h1.symm
    _ ≤ u.toFinset.card := Finset.card_le_card h2
    _ ≤ u.length := u.toFinset_card_le

theorem reachClosure_nodup (edges : List (String × String)) :
    ∀ (f : Nat) (vs : List String), vs.Nodup → (reachClosure edges f vs).Nodup := by
  intro f
  induction f with
  | zero => intro vs h; exact h
  | succ f ih => intro vs h; exact ih (reachStep edges vs) (reachStep_nodup edges vs h)

theorem reachClosure_subset_univ (edges : List (String × String)) (u : List String)
    (hto : ∀ e ∈ edges, e.2 ∈ u) :
    ∀ (f : Nat) (vs : List String), (∀ x ∈ vs, x ∈ u) →
      ∀ x ∈ reachClosure edges f vs, x ∈ u := by
  intro f
  induction f with
  | zero => intro vs h; exact h
  | succ f ih =>
    intro vs h
    exact ih (reachStep edges vs) (reachStep_subset_univ edges vs u h hto)

theorem reachClosure_grows (edges : List (String × String)) :
    ∀ (f : Nat) (vs : List String), vs <+: reachClosure edges f vs := by
  intro f
  induction f with
  | zero => intro vs; exact List.prefix_rfl
  | succ f ih =>
    intro vs
    exact (reachStep_grows edges vs).trans (ih (reachStep edges vs))

/-- At fuel `edges.length + 1` the iterated expansion from a single seed
has stabilized. -/
theorem descend_closure_stable (edges : List (String × String)) (v : String) :
    reachStep edges (reachClosure edges (edges.length + 1) [v]) =
      reachClosure edges (edges.length + 1) [v] := by
  rcases reachClosure_stable_or_grows edges (edges.length + 1) [v] with h | h
  · exact h
  · exfalso
    have hn : (reachClosure edges (edges.length + 1) [v]).Nodup :=
      reachClosure_nodup edges _ [v] (List.nodup_singleton v)
    have hsub : ∀ x ∈ reachClosure edges (edges.length + 1) [v],
        x ∈ v :: edges.map (fun e => e.2) := by
      refine reachClosure_subset_univ edges _ ?_ _ [v] ?_
      · intro e he
        exact List.mem_cons_of_mem v (List.mem_map.2 ⟨e, he, rfl⟩)
      · intro x hx
        simp only [List.mem_singleton] at hx
        exact hx ▸ List.mem_cons_self v _
    have hb := nodup_subset_length _ _ hn hsub
    simp only [List.length_cons, List.length_map, List.length_singleton] at hb h
    omega

theorem reachClosure_sound (edges : List (String × String)) :
    ∀ (f : Nat) (vs : List String) (x : String), x ∈ reachClosure edges f vs →
      x ∈ vs ∨ ∃ v ∈ vs, Relation.TransGen (fun a b => (a, b) ∈ edges) v x := by
  intro f
  induction f with
  | zero => intro vs x h; exact Or.inl h
  | succ f ih =>
    intro vs x h
    rcases ih (reachStep edges vs) x h with h1 | ⟨v, hv, ht⟩
    · rcases (mem_reachStep edges vs x).1 h1 with h2 | ⟨v, hv, hs⟩
      · exact Or.inl h2
      · exact Or.inr ⟨v, hv, Relation.TransGen.single ((mem_succs edges v x).1 hs)⟩
    · rcases (mem_reachStep edges vs v).1 hv with h2 | ⟨w, hw, hs⟩
      · exact Or.inr ⟨v, h2, ht⟩
      · exact Or.inr ⟨w, hw,
          (Relation.TransGen.single ((mem_succs edges w v).1 hs)).trans ht⟩

theorem mem_closure_of_transGen (edges : List (String × String)) (v x : String)
    (h : Relation.TransGen (fun a b => (a, b) ∈ edges) v x) :
    x ∈ reachClosure edges (edges.length + 1) [v] := by
  have hstable := descend_closure_stable edges v
  have hclosed := stable_closed edges _ hstable
  have hv : v ∈ reachClosure edges (edges.length + 1) [v] :=
    (reachClosure_grows edges _ [v]).subset (List.mem_singleton_self v)
  induction h with
  | single hs => exact hclosed v hv _ hs
  | tail _ hbc ih => exact hclosed _ ih _ hbc

/-- Correctness of `descendants` against path reachability: x is a
descendant of v exactly when x ≠ v and there is a directed path of at
least one edge from v to x. -/
theorem mem_descendants (edges : List (String × String)) (v x : String) :
    x ∈ descendants edges v ↔
      x ≠ v ∧ Relation.TransGen (fun a b => (a, b) ∈ edges) v x := by
  unfold descendants
  rw [List.mem_filter]
  constructor
  · rintro ⟨hc, hne⟩
    have hne' : x ≠ v := by simpa using hne
    refine ⟨hne', ?_⟩
    rcases reachClosure_sound edges _ [v] x hc with h | ⟨w, hw, ht⟩
    · exact absurd (by simpa using h) hne'
    · have hwv : w = v := by simpa using hw
      rwa [hwv] at ht
  · rintro ⟨hne, ht⟩
    exact ⟨mem_closure_of_transGen edges v x ht, by simpa using hne⟩

theorem descendants_eq_nil_iff (edges : List (String × String)) (v : String) :
    descendants edges v = [] ↔
      ∀ x, Relation.TransGen (fun a b => (a, b) ∈ edges) v x → x = v := by
  rw [List.eq_nil_iff_forall_not_mem]
  constructor
  · intro h x ht
    by_contra hne
    exact h x ((mem_descendants edges v x).2 ⟨hne, ht⟩)
  · intro h x hx
    rcases (mem_descendants edges v x).1 hx with ⟨hne, ht⟩
    exact hne (h x ht)

theorem gNodes_nodup (edges : List (String × String)) : (gNodes edges).Nodup := by
  unfold gNodes
  suffices h : ∀ (l : List (String × String)) (acc : List String), acc.Nodup →
      (l.foldl (fun a e => osAdd (osAdd a e.1) e.2) acc).Nodup from
    h edges [] List.nodup_nil
  intro l
  induction l with
  | nil => intro acc h; exact h
  | cons e es ih =>
    intro acc h
    exact ih _ (osAdd_nodup e.2 (osAdd_nodup e.1 h))

theorem one_lt_filter_length_iff (l : List String) (p : String → Bool)
    (hl : l.Nodup) :
    1 < (l.filter p).length ↔
      ∃ v w, v ∈ l ∧ w ∈ l ∧ v ≠ w ∧ p v = true ∧ p w = true := by
  constructor
  · intro h
    rcases hf : l.filter p with _ | ⟨a, _ | ⟨b, rest⟩⟩
    · rw [hf] at h
      simp at h
    · rw [hf] at h
      simp at h
    · have hnd := hl.filter p
      rw [hf] at hnd
      have hab : a ≠ b :=
        fun he => (List.nodup_cons.1 hnd).1 (he ▸ List.mem_cons_self b rest)
      have ha : a ∈ l.filter p := by
        rw [hf]
        exact List.mem_cons_self a _
      have hb : b ∈ l.filter p := by
        rw [hf]
        exact List.mem_cons_of_mem a (List.mem_cons_self b rest)
      rcases List.mem_filter.1 ha with ⟨ha1, ha2⟩
      rcases List.mem_filter.1 hb with ⟨hb1, hb2⟩
      exact ⟨a, b, ha1, hb1, hab, ha2, hb2⟩
  · rintro ⟨v, w, hv, hw, hne, hpv, hpw⟩
    have hvf : v ∈ l.filter p := List.mem_filter.2 ⟨hv, hpv⟩
    have hwf : w ∈ l.filter p := List.mem_filter.2 ⟨hw, hpw⟩
    rcases hf : l.filter p with _ | ⟨a, _ | ⟨b, rest⟩⟩
    · rw [hf] at hvf
      simp at hvf
    · rw [hf] at hvf hwf
      simp only [List.mem_singleton] at hvf hwf
      exact absurd (hvf.trans hwf.symm) hne
    · simp [hf]

/-- C5 counterexample: for the two-rule catalog fragment where rule "A"
blacklists "B" and rule "B" blacklists "A" (a 2-cycle), the blacklist
graph has zero sinks — the number of sinks is not exactly one — yet the
validator's "has multiple sinks" warning is not emitted, because the code
warns only when `len(sinks) > 1`. -/
theorem C5_sink_warning_counterexample :
    multiple_sinks_warn [("A", ["B"]), ("B", ["A"])] = false ∧
    (sinks (blEdges [("A", ["B"]), ("B", ["A"])])).length = 0 := by
  constructor
  · rfl
  · rfl

/-- C5 amended: for every rule set sharing a pattern, the validator
computes the sinks of the directed blacklist graph — the nodes from which
no other node is reachable along blacklist edges — and emits the "has
multiple sinks" warning exactly when the number of sinks is **at least
two** (`len(sinks) > 1`); a sink count of zero (e.g. a cyclic graph)
emits no warning. -/
theorem C5_sink_warning_iff :
    ∀ rules : List (String × List String),
      multiple_sinks_warn rules = true ↔
        ∃ v w, v ∈ gNodes (blEdges rules) ∧ w ∈ gNodes (blEdges rules) ∧ v ≠ w ∧
          (∀ x, Relation.TransGen (edgeRel rules) v x → x = v) ∧
          (∀ x, Relation.TransGen (edgeRel rules) w x → x = w) := by
  intro rules
  unfold multiple_sinks_warn sinks
  rw [decide_eq_true_eq]
  rw [one_lt_filter_length_iff _ _ (gNodes_nodup (blEdges rules))]
  constructor
  · rintro ⟨v, w, hv, hw, hne, hpv, hpw⟩
    rw [decide_eq_true_eq] at hpv hpw
    exact ⟨v, w, hv, hw, hne,
      (descendants_eq_nil_iff (blEdges rules) v).1 hpv,
      (descendants_eq_nil_iff (blEdges rules) w).1 hpw⟩
  · rintro ⟨v, w, hv, hw, hne, hsv, hsw⟩
    refine ⟨v, w, hv, hw, hne, ?_, ?_⟩
    · rw [decide_eq_true_eq]
      exact (descendants_eq_nil_iff (blEdges rules) v).2 hsv
    · rw [decide_eq_true_eq]
      exact (descendants_eq_nil_iff (blEdges rules) w).2 hsw

/-- Instantiation: a rule blacklisting two ids produces a graph with two
sinks, and the theorem yields the warning's two distinct path-free
nodes. -/
theorem C5_sink_warning_iff_witness :
    ∃ v w, v ∈ gNodes (blEdges [("A", ["B", "C"])]) ∧
      w ∈ gNodes (blEdges [("A", ["B", "C"])]) ∧ v ≠ w ∧
      (∀ x, Relation.TransGen (edgeRel [("A", ["B", "C"])]) v x → x = v) ∧
      (∀ x, Relation.TransGen (edgeRel [("A", ["B", "C"])]) w x → x = w) :=
  (C5_sink_warning_iff [("A", ["B", "C"])]).mp (by decide)

/-! ## Soundness and completeness of the ring search -/

/-- The step relation of the bond graph: b is listed as a neighbor of a. -/
def Adj (adj : Nat → List Nat) (a b : Nat) : Prop := b ∈ adj a

/-- What the ring search records from a given query atom: an ordered
duplicate-free atom list starting at the query atom, consecutive atoms
bonded, between 3 and L atoms, whose last atom is bonded back to the
first. -/
def IsRingFrom (adj : Nat → List Nat) (L a : Nat) (p : List Nat) : Prop :=
  p.head? = some a ∧ p.Nodup ∧ List.Chain' (Adj adj) p ∧
    3 ≤ p.length ∧ p.length ≤ L ∧ ∀ b, p.getLast? = some b → a ∈ adj b

/-- The conclusions the search guarantees for each recorded ring relative
to the current path. -/
def SoundOut (adj : Nat → List Nat) (L : Nat) (path p : List Nat) : Prop :=
  path <+: p ∧ p.Nodup ∧ List.Chain' (Adj adj) p ∧ 3 ≤ p.length ∧
    p.length ≤ L ∧ p.head? = path.head? ∧
    ∀ x b, p.head? = some x → p.getLast? = some b → x ∈ adj b

theorem headq_append_left {l : List Nat} (t : List Nat) (h : l ≠ []) :
    (l ++ t).head? = l.head? := by
  cases l with
  | nil => exact absurd rfl h
  | cons a as => rfl

theorem nodup_concat {l : List Nat} {n : Nat} (hnd : l.Nodup) (hn : n ∉ l) :
    (l ++ [n]).Nodup := by
  rw [List.nodup_append]
  refine ⟨hnd, List.nodup_singleton n, ?_⟩
  intro a ha hax
  simp only [List.mem_singleton] at hax
  subst hax
  exact hn ha

theorem chain'_concat_of_adj {adj : Nat → List Nat} {l : List Nat} {lst n : Nat}
    (hch : List.Chain' (Adj adj) l) (hlast : l.getLast? = some lst)
    (hadj : n ∈ adj lst) : List.Chain' (Adj adj) (l ++ [n]) := by
  rw [List.chain'_append]
  refine ⟨hch, List.chain'_singleton n, ?_⟩
  intro x hx y hy
  simp only [List.head?_cons, Option.mem_def, Option.some.injEq] at hy
  rw [hlast] at hx
  simp only [Option.mem_def, Option.some.injEq] at hx
  subst hx
  subst hy
  exact hadj

theorem rings_loop_sound (adj : Nat → List Nat) (L : Nat)
    (stepf : Nat → List Nat → List (List Nat))
    (hstep : ∀ (n : Nat) (path : List Nat), path ≠ [] → path.Nodup →
      List.Chain' (Adj adj) path → path.length ≤ L →
      path.getLast? = some n →
      ∀ p ∈ stepf n path, SoundOut adj L path p) :
    ∀ (ns path : List Nat), path ≠ [] → path.Nodup →
      List.Chain' (Adj adj) path → (path.length ≤ L ∨ path.length = 1) →
      (∀ lst, path.getLast? = some lst → ∀ n ∈ ns, n ∈ adj lst) →
      ∀ p ∈ rings_loop adj L stepf ns path, SoundOut adj L path p := by
  intro ns
  induction ns with
  | nil =>
    intro path _ _ _ _ _ p hp
    simp [rings_loop] at hp
  | cons n rest ih =>
    intro path hne hnd hch hlen hns p hp
    rw [rings_loop] at hp
    rcases List.mem_append.1 hp with hp1 | hp2
    · obtain ⟨lst, hlast⟩ : ∃ lst, path.getLast? = some lst :=
        ⟨path.getLast hne, List.getLast?_eq_getLast path hne⟩
      split_ifs at hp1 with h1 h2 h3
      · have hpp : p = path := by simpa using hp1
        subst hpp
        refine ⟨List.prefix_rfl, hnd, hch, by omega, by omega, rfl, ?_⟩
        intro x b hx hb
        have hxn : x = n := by
          rw [h1.2] at hx
          simpa using hx.symm
        have hbl : b = lst := by
          rw [hlast] at hb
          simpa using hb.symm
        rw [hxn, hbl]
        exact hns lst hlast n (List.mem_cons_self n rest)
      · simp at hp1
      · have hadj : n ∈ adj lst := hns lst hlast n (List.mem_cons_self n rest)
        have hout := hstep n (path ++ [n]) (by simp) (nodup_concat hnd h2)
          (chain'_concat_of_adj hch hlast hadj) (by simp; omega)
          (List.getLast?_concat path) p hp1
        rcases hout with ⟨hpre, hnd2, hch2, h32, hL2, hh2, hc2⟩
        refine ⟨(List.prefix_append path [n]).trans hpre, hnd2, hch2, h32, hL2, ?_, hc2⟩
        rw [hh2, headq_append_left [n] hne]
      · simp at hp1
    · exact ih path hne hnd hch hlen
        (fun lst hlast n2 hn2 => hns lst hlast n2 (List.mem_cons_of_mem n hn2)) p hp2

theorem rings_step_sound (adj : Nat → List Nat) (L : Nat) :
    ∀ (fuel : Nat) (a : Nat) (path : List Nat), path ≠ [] → path.Nodup →
      List.Chain' (Adj adj) path → (path.length ≤ L ∨ path.length = 1) →
      path.getLast? = some a →
      ∀ p ∈ rings_step adj L fuel a path, SoundOut adj L path p := by
  intro fuel
  induction fuel with
  | zero =>
    intro a path _ _ _ _ _ p hp
    simp [rings_step] at hp
  | succ fuel ih =>
    intro a path hne hnd hch hlen hlast p hp
    rw [rings_step] at hp
    split at hp
    · refine rings_loop_sound adj L (rings_step adj L fuel) ?_
        (adj a) path hne hnd hch hlen ?_ p hp
      · intro n path2 hne2 hnd2 hch2 hlen2 hlast2 q hq
        exact ih n path2 hne2 hnd2 hch2 (Or.inl hlen2) hlast2 q hq
      · intro lst hl n hn
        have : lst = a := by
          rw [hlast] at hl
          simpa using hl.symm
        subst this
        exact hn
    · simp at hp

/-- Soundness of `Rings(atom, L).rings`: every recorded entry is a closed
ring starting at the query atom with between 3 and L atoms. -/
theorem rings_sound (adj : Nat → List Nat) (L a : Nat) :
    ∀ p ∈ rings adj L a, IsRingFrom adj L a p := by
  intro p hp
  have h := rings_step_sound adj L (L + 1) a [a] (by simp) (by simp) (by simp)
    (Or.inr rfl) (by simp) p hp
  rcases h with ⟨_, hnd, hch, h3, hL, hhead, hclose⟩
  have hh : p.head? = some a := by
    rw [hhead]
    rfl
  exact ⟨hh, hnd, hch, h3, hL, fun b hb => hclose a b hh hb⟩

/-- C3 counterexample: on a triangle molecule, the ring search with target
length 6 returns the ring [0, 1, 2] of length 3 — a cycle whose length
differs from the requested target length. -/
theorem C3_exact_length_counterexample :
    [0, 1, 2] ∈ rings triAdj 6 0 ∧ ([0, 1, 2] : List Nat).length ≠ 6 := by
  decide

/-- C3 amended: every ring returned by the finder for a query
(start_atom, target_length) is an ordered duplicate-free list of atoms
that starts at the start atom, has consecutive atoms bonded, closes back
to the start atom, and has length at least 3 and **at most** the target
length — but not always exactly the target length: any cycle of length 3
up to the target through the start atom is recorded. -/
theorem C3_rings_sound (adj : Nat → List Nat) (L a : Nat) :
    ∀ p ∈ rings adj L a,
      p.head? = some a ∧ p.Nodup ∧ List.Chain' (Adj adj) p ∧
        3 ≤ p.length ∧ p.length ≤ L ∧ ∀ b, p.getLast? = some b → a ∈ adj b :=
  fun p hp => rings_sound adj L a p hp

/-- Instantiation of the amended claim on the triangle. -/
theorem C3_rings_sound_witness :
    ([0, 1, 2] : List Nat).head? = some 0 ∧ ([0, 1, 2] : List Nat).Nodup ∧
      List.Chain' (Adj triAdj) [0, 1, 2] ∧ 3 ≤ ([0, 1, 2] : List Nat).length ∧
      ([0, 1, 2] : List Nat).length ≤ 6 ∧
      ∀ b, ([0, 1, 2] : List Nat).getLast? = some b → 0 ∈ triAdj b :=
  C3_rings_sound triAdj 6 0 [0, 1, 2] (by decide)

/-- C10: the benzene membership check returns a ring (truthy) exactly when
the 6-ring search rooted at the atom yields exactly two entries and every
atom of the first entry is a carbon with exactly 3 neighbors; in every
other case it returns False — in particular at the fusion atom of
naphthalene, which lies on two distinct six-rings, the search yields more
than two entries and the atom is not classified as a benzene member. -/
theorem C10_benzene_membership :
    (∀ (m : Mol) (i : Nat),
      benzene m i ≠ none ↔
        (rings m.adj 6 i).length = 2 ∧
          ∀ c ∈ (rings m.adj 6 i).headD [],
            m.kind c = "C" ∧ (m.adj c).length = 3) ∧
    (2 < (rings naphthalene.adj 6 0).length ∧ benzene naphthalene 0 = none) := by
  constructor
  · intro m i
    unfold benzene
    rcases hr : rings m.adj 6 i with _ | ⟨r1, _ | ⟨r2, rest⟩⟩
    · simp
    · simp
    · rcases rest with _ | ⟨r3, rest2⟩
      · dsimp only
        by_cases hall :
          r1.all (fun c => m.kind c == "C" && (m.adj c).length == 3) = true
        · rw [if_pos hall]
          simp only [List.all_eq_true, Bool.and_eq_true, beq_iff_eq] at hall
          simp only [ne_eq, List.length_cons, List.length_nil, List.headD_cons]
          constructor
          · intro _
            exact ⟨trivial, fun c hc => ⟨(hall c hc).1, by simpa using (hall c hc).2⟩⟩
          · intro _
            exact fun h => Option.noConfusion h
        · rw [if_neg hall]
          simp only [List.all_eq_true] at hall
          push_neg at hall
          rcases hall with ⟨c, hc, hcf⟩
          simp only [ne_eq, not_true_eq_false, List.length_cons, List.length_nil,
            List.headD_cons, false_iff, not_and]
          intro _ hforall
          rcases hforall c hc with ⟨h1, h2⟩
          exact hcf (by simp [h1, h2])
      · simp
  · exact ⟨by decide, by decide⟩

instance (adj : Nat → List Nat) : DecidableRel (Adj adj) :=
  fun a b => inferInstanceAs (Decidable (b ∈ adj a))

theorem getElem_idx_congr {p : List Nat} {i j : Nat} (hi : i < p.length)
    (hj : j < p.length) (h : i = j) : p[i] = p[j] := by
  subst h
  rfl

theorem one_lt_length_of_two_mem {l : List Nat} {x y : Nat} (hx : x ∈ l)
    (hy : y ∈ l) (hne : x ≠ y) : 1 < l.length := by
  rcases l with _ | ⟨a, _ | ⟨b, t⟩⟩
  · cases hx
  · simp only [List.mem_singleton] at hx hy
    exact absurd (hx.trans hy.symm) hne
  · simp

theorem chain_edge (adj : Nat → List Nat) {p : List Nat}
    (hch : List.Chain' (Adj adj) p) {i : Nat} (h : i + 1 < p.length) :
    p[i + 1] ∈ adj p[i] := by
  have hg := List.chain'_iff_get.1 hch i (by omega)
  exact hg

theorem close_edge {adj : Nat → List Nat} {p : List Nat}
    (hclose : ∀ x b, p.head? = some x → p.getLast? = some b → x ∈ adj b)
    (h0 : 0 < p.length) : p[0] ∈ adj p[p.length - 1] := by
  apply hclose
  · rw [List.head?_eq_getElem?, List.getElem?_eq_getElem h0]
  · rw [List.getLast?_eq_getElem?, List.getElem?_eq_getElem (by omega)]

/-- With symmetric bonds, every atom of a closed ring path has at least
two distinct neighbors (its predecessor and successor along the ring), so
the search's dead-end pruning never hides a ring atom. -/
theorem ring_member_two_neighbors (adj : Nat → List Nat)
    (hsym : ∀ x y, x ∈ adj y → y ∈ adj x) (p : List Nat) (hnd : p.Nodup)
    (hch : List.Chain' (Adj adj) p) (h3 : 3 ≤ p.length)
    (hclose : ∀ x b, p.head? = some x → p.getLast? = some b → x ∈ adj b)
    (j : Nat) (hj : j < p.length) : 1 < (adj p[j]).length := by
  have hinj : ∀ (i k : Nat) (hi : i < p.length) (hk : k < p.length), i ≠ k →
      p[i] ≠ p[k] := by
    intro i k hi hk hik he
    exact hik ((hnd.getElem_inj_iff).1 he)
  rcases Nat.eq_zero_or_pos j with hj0 | hjpos
  · subst hj0
    have hsucc : p[1] ∈ adj p[0] := chain_edge adj hch (by omega)
    have hlast : p[p.length - 1] ∈ adj p[0] := hsym _ _ (close_edge hclose (by omega))
    exact one_lt_length_of_two_mem hsucc hlast (hinj 1 (p.length - 1) (by omega)
      (by omega) (by omega))
  · obtain ⟨i, rfl⟩ : ∃ i, j = i + 1 := ⟨j - 1, by omega⟩
    rcases Nat.lt_or_ge (i + 1) (p.length - 1) with hjlt | hjge
    · have hsucc : p[i + 1 + 1] ∈ adj p[i + 1] := chain_edge adj hch (by omega)
      have hpred : p[i] ∈ adj p[i + 1] :=
        hsym _ _ (chain_edge adj hch (by omega))
      exact one_lt_length_of_two_mem hsucc hpred
        (hinj (i + 1 + 1) i (by omega) (by omega) (by omega))
    · have hlen : p.length = i + 2 := by omega
      have hhead : p[0] ∈ adj p[i + 1] := by
        have hc := close_edge hclose (p := p) (by omega)
        have hg : p[p.length - 1] = p[i + 1] :=
          getElem_idx_congr (by omega) (by omega) (by omega)
        rw [hg] at hc
        exact hc
      have hpred : p[i] ∈ adj p[i + 1] :=
        hsym _ _ (chain_edge adj hch (by omega))
      exact one_lt_length_of_two_mem hhead hpred
        (hinj 0 i (by omega) (by omega) (by omega))

/-- Validity of a target ring `path ++ q` for the completeness argument:
the whole list is a closed ring candidate within the length budget. -/
def RingExt (adj : Nat → List Nat) (L : Nat) (path q : List Nat) : Prop :=
  (path ++ q).Nodup ∧ List.Chain' (Adj adj) (path ++ q) ∧
    3 ≤ (path ++ q).length ∧ (path ++ q).length ≤ L ∧
    ∀ x b, (path ++ q).head? = some x → (path ++ q).getLast? = some b → x ∈ adj b

theorem rings_loop_complete (adj : Nat → List Nat) (L B : Nat)
    (stepf : Nat → List Nat → List (List Nat))
    (hstep : ∀ (n : Nat) (path' q' : List Nat), path' ≠ [] →
      path'.getLast? = some n → RingExt adj L path' q' → q'.length < B →
      (path' ++ q') ∈ stepf n path') :
    ∀ (ns path q : List Nat), path ≠ [] → RingExt adj L path q →
      q.length ≤ B →
      (match q with
       | [] => ∃ x, path.head? = some x ∧ x ∈ ns
       | n :: _ => n ∈ ns) →
      (path ++ q) ∈ rings_loop adj L stepf ns path := by
  intro ns
  induction ns with
  | nil =>
    intro path q hne hext hqB hfs
    rcases q with _ | ⟨n0, q'⟩
    · rcases hfs with ⟨x, _, hx⟩
      cases hx
    · cases hfs
  | cons n rest ih =>
    intro path q hne hext hqB hfs
    rw [rings_loop]
    rcases q with _ | ⟨n0, q'⟩
    · rcases hfs with ⟨x, hx, hmem⟩
      rcases List.mem_cons.1 hmem with heq | hmr
      · subst heq
        apply List.mem_append_left
        have hlen3 : 3 ≤ path.length := by
          have h3 := hext.2.2.1
          simpa using h3
        rw [if_pos (⟨by omega, hx⟩ : 2 < path.length ∧ path.head? = some x)]
        simp
      · apply List.mem_append_right
        exact ih path [] hne hext hqB ⟨x, hx, hmr⟩
    · rcases List.mem_cons.1 hfs with heq | hmr
      · subst heq
        apply List.mem_append_left
        have hn0path : n0 ∉ path := by
          intro hmem
          exact (List.disjoint_of_nodup_append hext.1) hmem (List.mem_cons_self n0 q')
        have hcond1 : ¬(2 < path.length ∧ path.head? = some n0) := by
          rintro ⟨_, hh⟩
          exact hn0path (List.mem_of_mem_head? (by rw [hh]; rfl))
        rw [if_neg hcond1, if_neg hn0path]
        have hlt : path.length < L := by
          have h1 := hext.2.2.2.1
          simp only [List.length_append, List.length_cons] at h1
          omega
        rw [if_pos hlt]
        have hassoc : path ++ n0 :: q' = (path ++ [n0]) ++ q' := by simp
        rw [hassoc]
        refine hstep n0 (path ++ [n0]) q' (by simp) (List.getLast?_concat path) ?_ ?_
        · unfold RingExt
          rw [← hassoc]
          exact hext
        · simp only [List.length_cons] at hqB
          omega
      · apply List.mem_append_right
        exact ih path (n0 :: q') hne hext hqB hmr

theorem rings_step_complete (adj : Nat → List Nat) (L : Nat)
    (hsym : ∀ x y, x ∈ adj y → y ∈ adj x) :
    ∀ (fuel : Nat) (a : Nat) (path q : List Nat), path ≠ [] →
      path.getLast? = some a → RingExt adj L path q → q.length < fuel →
      (path ++ q) ∈ rings_step adj L fuel a path := by
  intro fuel
  induction fuel with
  | zero =>
    intro a path q _ _ _ h
    omega
  | succ fuel ih =>
    intro a path q hne hlast hext hfl
    rw [rings_step]
    have hplen : 0 < path.length := List.length_pos.2 hne
    have hpa : ∀ h : path.length - 1 < path.length, path[path.length - 1] = a := by
      intro h
      rw [List.getLast?_eq_getElem?] at hlast
      rcases List.getElem?_eq_some.1 hlast with ⟨h2, hv⟩
      exact hv
    have hguard : 1 < (adj a).length := by
      rcases hext with ⟨hnd, hch, h3, hL, hclose⟩
      have hidx : path.length - 1 < (path ++ q).length := by
        simp only [List.length_append]
        omega
      have hip : path.length - 1 < path.length := by omega
      have hval : (path ++ q)[path.length - 1] = a := by
        rw [List.getElem_append_left hip]
        exact hpa hip
      have h2n := ring_member_two_neighbors adj hsym (path ++ q) hnd hch h3 hclose
        (path.length - 1) hidx
      rwa [hval] at h2n
    rw [if_pos hguard]
    refine rings_loop_complete adj L fuel (rings_step adj L fuel) ?_ (adj a) path q
      hne hext (by omega) ?_
    · intro n path2 q2 hne2 hlast2 hext2 hq2
      exact ih n path2 q2 hne2 hlast2 hext2 hq2
    · rcases q with _ | ⟨n0, q'⟩
      · obtain ⟨x, hx⟩ : ∃ x, path.head? = some x := by
          cases path with
          | nil => exact absurd rfl hne
          | cons p0 pt => exact ⟨p0, rfl⟩
        refine ⟨x, hx, ?_⟩
        have hclose := hext.2.2.2.2
        have hh : (path ++ []).head? = some x := by simpa using hx
        have hl : (path ++ []).getLast? = some a := by simpa using hlast
        exact hclose x a hh hl
      · have hch := hext.2.1
        rcases (List.chain'_append.1 hch) with ⟨_, _, hbd⟩
        have := hbd a (by rw [hlast]; rfl) n0 (by rfl)
        exact this

/-- Completeness of the ring search (for symmetric neighbor lists): every
closed ring based at the query atom, of length at most the target, is
among the recorded entries. -/
theorem rings_complete (adj : Nat → List Nat) (L a : Nat)
    (hsym : ∀ x y, x ∈ adj y → y ∈ adj x) (p : List Nat)
    (h : IsRingFrom adj L a p) : p ∈ rings adj L a := by
  rcases h with ⟨hhead, hnd, hch, h3, hL, hclose⟩
  rcases p with _ | ⟨a0, t⟩
  · cases hhead
  · have ha0 : a0 = a := by simpa using hhead
    subst ha0
    rw [rings, show a0 :: t = [a0] ++ t from rfl]
    refine rings_step_complete adj L hsym (L + 1) a0 [a0] t (by simp) (by simp) ?_ ?_
    · refine ⟨hnd, hch, h3, hL, ?_⟩
      intro x b hx hb
      have hxa : a0 = x := by simpa using hx
      subst hxa
      exact hclose b hb
    · simp only [List.length_cons] at hL
      omega

theorem prefix_getElem_concat {path p : List Nat} {n : Nat}
    (h : (path ++ [n]) <+: p) : p[path.length]? = some n := by
  rcases h with ⟨t, rfl⟩
  rw [List.getElem?_append, if_pos (by simp)]
  exact List.getElem?_concat_length path n

theorem rings_loop_nodup (adj : Nat → List Nat) (L : Nat)
    (stepf : Nat → List Nat → List (List Nat))
    (hpref : ∀ (n : Nat) (path' : List Nat), path' ≠ [] → path'.Nodup →
      List.Chain' (Adj adj) path' → path'.length ≤ L → path'.getLast? = some n →
      ∀ p ∈ stepf n path', path' <+: p)
    (hnd_step : ∀ (n : Nat) (path' : List Nat), path' ≠ [] → path'.Nodup →
      List.Chain' (Adj adj) path' → path'.length ≤ L → path'.getLast? = some n →
      (stepf n path').Nodup) :
    ∀ (ns path : List Nat), path ≠ [] → path.Nodup →
      List.Chain' (Adj adj) path → (path.length ≤ L ∨ path.length = 1) →
      (∀ lst, path.getLast? = some lst → ∀ n ∈ ns, n ∈ adj lst) →
      ns.Nodup →
      (rings_loop adj L stepf ns path).Nodup ∧
      (∀ p ∈ rings_loop adj L stepf ns path,
        p = path → ∃ x, path.head? = some x ∧ x ∈ ns) ∧
      (∀ p ∈ rings_loop adj L stepf ns path,
        p ≠ path → ∃ n ∈ ns, p[path.length]? = some n) := by
  intro ns
  induction ns with
  | nil =>
    intro path _ _ _ _ _ _
    refine ⟨by simp [rings_loop], ?_, ?_⟩
    · intro p hp
      simp [rings_loop] at hp
    · intro p hp
      simp [rings_loop] at hp
  | cons n rest ih =>
    intro path hne hnd hch hlen hns hnsnd
    obtain ⟨lst, hlast⟩ : ∃ lst, path.getLast? = some lst :=
      ⟨path.getLast hne, List.getLast?_eq_getLast path hne⟩
    have hnrest : n ∉ rest := (List.nodup_cons.1 hnsnd).1
    have hrestnd : rest.Nodup := (List.nodup_cons.1 hnsnd).2
    have hnsrest : ∀ lst2, path.getLast? = some lst2 → ∀ x ∈ rest, x ∈ adj lst2 :=
      fun lst2 hl2 x hx => hns lst2 hl2 x (List.mem_cons_of_mem n hx)
    have IH := ih path hne hnd hch hlen hnsrest hrestnd
    rw [rings_loop]
    split_ifs with h1 h2 h3
    · -- record branch: [path] ++ rest output
      refine ⟨?_, ?_, ?_⟩
      · rw [List.nodup_append]
        refine ⟨List.nodup_singleton path, IH.1, ?_⟩
        intro p hp hpB
        have hpp : p = path := by simpa using hp
        subst hpp
        rcases IH.2.1 p hpB rfl with ⟨x, hx, hxrest⟩
        have hxn : x = n := by
          rw [h1.2] at hx
          simpa using hx.symm
        subst hxn
        exact hnrest hxrest
      · intro p hp _
        exact ⟨n, h1.2, List.mem_cons_self n rest⟩
      · intro p hp hpne
        rcases List.mem_append.1 hp with hpA | hpB
        · have : p = path := by simpa using hpA
          exact absurd this hpne
        · rcases IH.2.2 p hpB hpne with ⟨n2, hn2, hg⟩
          exact ⟨n2, List.mem_cons_of_mem n hn2, hg⟩
    · -- skip branch: n already on the path
      refine ⟨by simpa using IH.1, ?_, ?_⟩
      · intro p hp hpe
        rcases IH.2.1 p (by simpa using hp) hpe with ⟨x, hx, hxrest⟩
        exact ⟨x, hx, List.mem_cons_of_mem n hxrest⟩
      · intro p hp hpne
        rcases IH.2.2 p (by simpa using hp) hpne with ⟨n2, hn2, hg⟩
        exact ⟨n2, List.mem_cons_of_mem n hn2, hg⟩
    · -- extension branch
      have hadj : n ∈ adj lst := hns lst hlast n (List.mem_cons_self n rest)
      have hne2 : (path ++ [n]) ≠ [] := by simp
      have hnd2 : (path ++ [n]).Nodup := nodup_concat hnd h2
      have hch2 : List.Chain' (Adj adj) (path ++ [n]) :=
        chain'_concat_of_adj hch hlast hadj
      have hlen2 : (path ++ [n]).length ≤ L := by
        simp only [List.length_append, List.length_cons, List.length_nil]
        omega
      have hlast2 : (path ++ [n]).getLast? = some n := List.getLast?_concat path
      have hApref := hpref n (path ++ [n]) hne2 hnd2 hch2 hlen2 hlast2
      have hAnd := hnd_step n (path ++ [n]) hne2 hnd2 hch2 hlen2 hlast2
      refine ⟨?_, ?_, ?_⟩
      · rw [List.nodup_append]
        refine ⟨hAnd, IH.1, ?_⟩
        intro p hpA hpB
        have hgA : p[path.length]? = some n :=
          prefix_getElem_concat (hApref p hpA)
        have hpnepath : p ≠ path := by
          intro hpe
          have hlenp := (hApref p hpA).length_le
          rw [hpe] at hlenp
          simp at hlenp
        rcases IH.2.2 p hpB hpnepath with ⟨n2, hn2, hgB⟩
        rw [hgA] at hgB
        have heq : n2 = n := by simpa using hgB.symm
        subst heq
        exact hnrest hn2
      · intro p hp hpe
        rcases List.mem_append.1 hp with hpA | hpB
        · exfalso
          have hlenp := (hApref p hpA).length_le
          rw [hpe] at hlenp
          simp at hlenp
        · rcases IH.2.1 p hpB hpe with ⟨x, hx, hxrest⟩
          exact ⟨x, hx, List.mem_cons_of_mem n hxrest⟩
      · intro p hp hpne
        rcases List.mem_append.1 hp with hpA | hpB
        · exact ⟨n, List.mem_cons_self n rest,
            prefix_getElem_concat (hApref p hpA)⟩
        · rcases IH.2.2 p hpB hpne with ⟨n2, hn2, hg⟩
          exact ⟨n2, List.mem_cons_of_mem n hn2, hg⟩
    · -- length-cap branch: nothing recorded for n
      refine ⟨by simpa using IH.1, ?_, ?_⟩
      · intro p hp hpe
        rcases IH.2.1 p (by simpa using hp) hpe with ⟨x, hx, hxrest⟩
        exact ⟨x, hx, List.mem_cons_of_mem n hxrest⟩
      · intro p hp hpne
        rcases IH.2.2 p (by simpa using hp) hpne with ⟨n2, hn2, hg⟩
        exact ⟨n2, List.mem_cons_of_mem n hn2, hg⟩

theorem rings_step_nodup (adj : Nat → List Nat) (L : Nat)
    (hadjnd : ∀ x, (adj x).Nodup) :
    ∀ (fuel : Nat) (a : Nat) (path : List Nat), path ≠ [] → path.Nodup →
      List.Chain' (Adj adj) path → (path.length ≤ L ∨ path.length = 1) →
      path.getLast? = some a → (rings_step adj L fuel a path).Nodup := by
  intro fuel
  induction fuel with
  | zero =>
    intro a path _ _ _ _ _
    simp [rings_step]
  | succ fuel ih =>
    intro a path hne hnd hch hlen hlast
    rw [rings_step]
    split
    · refine (rings_loop_nodup adj L (rings_step adj L fuel) ?_ ?_ (adj a) path
        hne hnd hch hlen ?_ (hadjnd a)).1
      · intro n path2 hne2 hnd2 hch2 hlen2 hlast2 p hp
        exact (rings_step_sound adj L fuel n path2 hne2 hnd2 hch2 (Or.inl hlen2)
          hlast2 p hp).1
      · intro n path2 hne2 hnd2 hch2 hlen2 hlast2
        exact ih n path2 hne2 hnd2 hch2 (Or.inl hlen2) hlast2
      · intro lst hl x hx
        have : lst = a := by
          rw [hlast] at hl
          simpa using hl.symm
        subst this
        exact hx
    · simp

/-- The ring search never records the same entry twice along distinct
search branches (for duplicate-free neighbor lists). -/
theorem rings_nodup (adj : Nat → List Nat) (L a : Nat)
    (hadjnd : ∀ x, (adj x).Nodup) : (rings adj L a).Nodup := by
  rw [rings]
  exact rings_step_nodup adj L hadjnd (L + 1) a [a] (by simp) (by simp) (by simp)
    (Or.inr rfl) (by simp)

theorem nodup_pair_eq {S : List (List Nat)} {x y : List Nat} (hnd : S.Nodup)
    (hsub : ∀ p ∈ S, p = x ∨ p = y) (hx : x ∈ S) (hy : y ∈ S) (hne : x ≠ y) :
    S = [x, y] ∨ S = [y, x] := by
  rcases S with _ | ⟨a, _ | ⟨b, _ | ⟨c, t⟩⟩⟩
  · cases hx
  · have hxa : x = a := by simpa using hx
    have hya : y = a := by simpa using hy
    exact absurd (hxa.trans hya.symm) hne
  · have hab : a ≠ b := by
      intro h
      subst h
      simp at hnd
    rcases hsub a (by simp) with ha | ha <;> rcases hsub b (by simp) with hb | hb
    · exact absurd (ha.trans hb.symm) hab
    · left
      rw [ha, hb]
    · right
      rw [ha, hb]
    · exact absurd (ha.trans hb.symm) hab
  · exfalso
    have hab : a ≠ b := by
      intro h
      subst h
      simp at hnd
    have hac : a ≠ c := by
      intro h
      subst h
      simp at hnd
    have hbc : b ≠ c := by
      intro h
      subst h
      simp at hnd
    rcases hsub a (by simp) with ha | ha <;>
      rcases hsub b (by simp) with hb | hb <;>
        rcases hsub c (by simp) with hc | hc
    · exact hab (ha.trans hb.symm)
    · exact hab (ha.trans hb.symm)
    · exact hac (ha.trans hc.symm)
    · exact hbc (hb.trans hc.symm)
    · exact hbc (hb.trans hc.symm)
    · exact hac (ha.trans hc.symm)
    · exact hab (ha.trans hb.symm)
    · exact hab (ha.trans hb.symm)

/-- C7: ring duplication law.  For a bond graph (symmetric, duplicate-free
neighbor lists) whose only true ring of length at most the target is the
single ring of length L through the query atom — rendered as: the closed
ring paths based at the query atom are exactly the two orientations O1
and O2 of that ring, reverse-rotations of each other — the search with
target L returns exactly 2 entries, and each is a reverse-order
permutation (list rotation plus reversal) of the other. -/
theorem C7_ring_duplication (adj : Nat → List Nat) (L a : Nat) (O1 O2 : List Nat)
    (hsym : ∀ x y, x ∈ adj y → y ∈ adj x)
    (hadjnd : ∀ x, (adj x).Nodup)
    (h1 : IsRingFrom adj L a O1) (_h1len : O1.length = L)
    (h2 : IsRingFrom adj L a O2)
    (hrel : List.IsRotated O2 O1.reverse) (hne12 : O1 ≠ O2)
    (huniq : ∀ p, IsRingFrom adj L a p → p = O1 ∨ p = O2) :
    ∃ p q, rings adj L a = [p, q] ∧ List.IsRotated q p.reverse ∧
      List.IsRotated p q.reverse := by
  have hnd := rings_nodup adj L a hadjnd
  have hsub : ∀ p ∈ rings adj L a, p = O1 ∨ p = O2 :=
    fun p hp => huniq p (rings_sound adj L a p hp)
  have hm1 : O1 ∈ rings adj L a := rings_complete adj L a hsym O1 h1
  have hm2 : O2 ∈ rings adj L a := rings_complete adj L a hsym O2 h2
  have hrel2 : List.IsRotated O1 O2.reverse := by
    have hrev := hrel.reverse
    rw [List.reverse_reverse] at hrev
    exact hrev.symm
  rcases nodup_pair_eq hnd hsub hm1 hm2 hne12 with hS | hS
  · exact ⟨O1, O2, hS, hrel, hrel2⟩
  · exact ⟨O2, O1, hS, hrel2, hrel⟩

/-- On the triangle, the only closed ring paths from atom 0 with target 3
are the two orientations. -/
theorem triangle_ring_cases (p : List Nat)
    (h : IsRingFrom triAdj 3 0 p) : p = [0, 1, 2] ∨ p = [0, 2, 1] := by
  rcases h with ⟨hhead, hnd, hch, h3, hL, _⟩
  rcases p with _ | ⟨p0, _ | ⟨p1, _ | ⟨p2, _ | ⟨p3, t⟩⟩⟩⟩
  · cases hhead
  · simp at h3
  · simp at h3
  · have hp0 : p0 = 0 := by simpa using hhead
    subst hp0
    rw [List.chain'_cons, List.chain'_cons] at hch
    have ha1 : p1 ∈ triAdj 0 := hch.1
    have ha2 : p2 ∈ triAdj p1 := hch.2.1
    have h01 : p1 ≠ 0 := by
      intro h
      subst h
      simp at hnd
    have h02 : p2 ≠ 0 := by
      intro h
      subst h
      simp at hnd
    have h12 : p1 ≠ p2 := by
      intro h
      subst h
      simp at hnd
    rcases (by simpa [triAdj] using ha1 : p1 = 1 ∨ p1 = 2) with rfl | rfl
    · rcases (by simpa [triAdj] using ha2 : p2 = 0 ∨ p2 = 2) with rfl | rfl
      · exact absurd rfl h02
      · left
        rfl
    · rcases (by simpa [triAdj] using ha2 : p2 = 0 ∨ p2 = 1) with rfl | rfl
      · exact absurd rfl h02
      · right
        rfl
  · exfalso
    simp only [List.length_cons] at hL
    omega

/-- Instantiation of the duplication law on the triangle with target 3:
the search returns exactly the two orientations, each a rotation of the
other's reversal. -/
theorem C7_ring_duplication_witness :
    ∃ p q, rings triAdj 3 0 = [p, q] ∧ List.IsRotated q p.reverse ∧
      List.IsRotated p q.reverse := by
  refine C7_ring_duplication triAdj 3 0 [0, 1, 2] [0, 2, 1] ?_ ?_ ?_ (by decide)
    ?_ ⟨1, by decide⟩ (by decide) triangle_ring_cases
  · intro x y h
    rcases y with _ | _ | _ | y
    · rcases (by simpa [triAdj] using h : x = 1 ∨ x = 2) with rfl | rfl <;> decide
    · rcases (by simpa [triAdj] using h : x = 0 ∨ x = 2) with rfl | rfl <;> decide
    · rcases (by simpa [triAdj] using h : x = 0 ∨ x = 1) with rfl | rfl <;> decide
    · simp [triAdj] at h
  · intro x
    rcases x with _ | _ | _ | x <;> simp [triAdj]
  · refine ⟨rfl, by decide, ?_, by decide, by decide, ?_⟩
    · rw [List.chain'_cons, List.chain'_cons]
      exact ⟨by decide, by decide, List.chain'_singleton 2⟩
    · intro b hb
      have hb2 : b = 2 := by simpa using hb.symm
      subst hb2
      decide
  · refine ⟨rfl, by decide, ?_, by decide, by decide, ?_⟩
    · rw [List.chain'_cons, List.chain'_cons]
      exact ⟨by decide, by decide, List.chain'_singleton 1⟩
    · intro b hb
      have hb2 : b = 1 := by simpa using hb.symm
      subst hb2
      decide
